import Mathlib

/-!
Verification of the rauc-disk-updater core against its specification.

The definitions below are shallow embeddings of the C sources
`src/rauc-disk-updater.c` and `src/udev.c`:

* pure computations become Lean functions;
* GLib unsigned 32-bit integers (`guint`) become `Nat` with explicit
  reduction modulo `2 ^ 32` wherever the C code can overflow;
* stateful callbacks become explicit state-passing step functions;
* external effects (subprocess spawn/wait, `mount`/`umount2` syscalls,
  D-Bus signal emission, file reads) are recorded in explicit event
  traces, with oracles standing in for the outcomes the environment
  chooses (spawn success, syscall errno, inspect results, ...).
-/

/-- Modulus of GLib `guint` (32-bit unsigned) arithmetic. -/
def GUINT_MOD : Nat := 2 ^ 32

namespace Hook

/-- Embedding of `DiskUpdaterBundle` as used by `run_hook_install`: only the
`path` and `version` properties are read there. -/
structure Bundle where
  path : String
  version : String
deriving Repr, DecidableEq

/-- Outcome of one `run_hook_install` execution, mirroring the distinct
control paths of the C function. -/
inductive HookOutcome where
  | noScript
  | noBundles
  | spawnFailed
  | waitFailed
  | denied
  | outOfBounds
  | installed (path : String)
deriving Repr, DecidableEq

/-- Environment block built by the `while(bundles)` loop of
`run_hook_install`: `bundle_ctr` is incremented before each use, so the
bundle at 0-based list position `i` receives the variables
`BUNDLE_PATH_(i+1)` and `BUNDLE_VERSION_(i+1)`. -/
def hookEnvAux : Nat → List Bundle → List (String × String)
  | _, [] => []
  | ctr, b :: rest =>
      ("BUNDLE_PATH_" ++ toString (ctr + 1), b.path) ::
      ("BUNDLE_VERSION_" ++ toString (ctr + 1), b.version) ::
      hookEnvAux (ctr + 1) rest

/-- Full environment handed to the hook subprocess: the per-bundle variables
followed by `BUNDLES` set to the total count. -/
def hookEnv (bundles : List Bundle) : List (String × String) :=
  hookEnvAux 0 bundles ++ [("BUNDLES", toString bundles.length)]

/-- Result of `run_hook_install`: the environment it prepared, the list of
paths passed to `rauc_installer_call_install_sync` (in call order), and the
control path taken. -/
structure HookResult where
  env : List (String × String)
  installCalls : List String
  outcome : HookOutcome
deriving Repr, DecidableEq

/-- Embedding of `run_hook_install` (rauc-disk-updater.c).  `script` models
the global `script_file`; `spawnOk` and `waitOk` are oracles for the
success of `g_subprocess_launcher_spawn` and `g_subprocess_wait`;
`exitStatus` is the value returned by `g_subprocess_get_exit_status`.
The bundle for a nonzero exit status `s` is looked up with
`g_slist_nth_data(bundles_head, s - 1)`. -/
def run_hook_install (script : Option String) (spawnOk waitOk : Bool)
    (exitStatus : Nat) (bundles : List Bundle) : HookResult :=
  match script with
  | none => ⟨[], [], .noScript⟩
  | some _ =>
    if bundles = [] then ⟨[], [], .noBundles⟩
    else
      let env := hookEnv bundles
      if spawnOk = false then ⟨env, [], .spawnFailed⟩
      else if waitOk = false then ⟨env, [], .waitFailed⟩
      else if exitStatus = 0 then ⟨env, [], .denied⟩
      else
        match bundles.get? (exitStatus - 1) with
        | none => ⟨env, [], .outOfBounds⟩
        | some b => ⟨env, [b.path], .installed b.path⟩

theorem hookEnvAux_mem_path {bundles : List Bundle} :
    ∀ {i ctr b}, bundles.get? i = some b →
      ("BUNDLE_PATH_" ++ toString (ctr + i + 1), b.path) ∈ hookEnvAux ctr bundles := by
  induction bundles with
  | nil => intro i ctr b h; simp at h
  | cons hd tl ih =>
    intro i ctr b h
    cases i with
    | zero =>
      simp only [List.get?] at h
      cases h
      simp [hookEnvAux]
    | succ j =>
      simp only [List.get?] at h
      have := @ih j (ctr + 1) b h
      simp only [hookEnvAux, List.mem_cons]
      right; right
      have harith : ctr + 1 + j + 1 = ctr + (j + 1) + 1 := by omega
      rw [harith] at this
      exact this

/-- C1: with a policy hook configured and a non-empty bundle sequence, the
hook's exit status `s` is interpreted as: `s = 0` denies and install is never
called; `1 ≤ s ≤ count` installs exactly once the bundle at 1-based position
`s` of the sequence handed to the hook — the same position as its
`BUNDLE_PATH_s` environment variable; any other value logs the
out-of-bounds warning and never installs. -/
theorem c1_hook_exit_status (script : String) (bundles : List Bundle) (s : Nat)
    (hb : bundles ≠ []) :
    (s = 0 →
      (run_hook_install (some script) true true s bundles).installCalls = [] ∧
      (run_hook_install (some script) true true s bundles).outcome = .denied) ∧
    (1 ≤ s → s ≤ bundles.length →
      ∃ b, bundles.get? (s - 1) = some b ∧
        (run_hook_install (some script) true true s bundles).installCalls = [b.path] ∧
        (run_hook_install (some script) true true s bundles).outcome = .installed b.path ∧
        ("BUNDLE_PATH_" ++ toString s, b.path) ∈
          (run_hook_install (some script) true true s bundles).env) ∧
    (bundles.length < s →
      (run_hook_install (some script) true true s bundles).installCalls = [] ∧
      (run_hook_install (some script) true true s bundles).outcome = .outOfBounds) := by
  refine ⟨?_, ?_, ?_⟩
  · intro hs
    subst hs
    simp [run_hook_install, hb]
  · intro h1 h2
    have hlt : s - 1 < bundles.length := by omega
    have hget : bundles.get? (s - 1) = some (bundles.get ⟨s - 1, hlt⟩) :=
      List.get?_eq_get hlt
    have hget' := hget
    simp only [List.get?_eq_getElem?] at hget'
    have hs0 : ¬ s = 0 := by omega
    refine ⟨bundles.get ⟨s - 1, hlt⟩, hget, ?_, ?_, ?_⟩
    · simp [run_hook_install, hb, hs0, hget']
    · simp [run_hook_install, hb, hs0, hget']
    · have hmem := @hookEnvAux_mem_path bundles (s - 1) 0 (bundles.get ⟨s - 1, hlt⟩) hget
      have harith : 0 + (s - 1) + 1 = s := by omega
      rw [harith] at hmem
      have henv : (run_hook_install (some script) true true s bundles).env =
          hookEnv bundles := by
        simp [run_hook_install, hb, hs0, hget']
      rw [henv]
      exact List.mem_append_left _ hmem
  · intro hgt
    have hnone : bundles.get? (s - 1) = none := by
      apply List.get?_eq_none.mpr
      omega
    have hs0 : ¬ s = 0 := by omega
    simp only [List.get?_eq_getElem?] at hnone
    simp [run_hook_install, hb, hs0, hnone]

/-- Witness for C1 at a concrete input: two bundles, exit status 2 installs
the second bundle's path. -/
theorem c1_hook_exit_status_witness :
    ∃ b : Bundle,
      [Bundle.mk "/m/a.raucb" "1", Bundle.mk "/m/b.raucb" "2"].get? (2 - 1) = some b ∧
      (run_hook_install (some "hook.sh") true true 2
        [Bundle.mk "/m/a.raucb" "1", Bundle.mk "/m/b.raucb" "2"]).installCalls = [b.path] ∧
      (run_hook_install (some "hook.sh") true true 2
        [Bundle.mk "/m/a.raucb" "1", Bundle.mk "/m/b.raucb" "2"]).outcome = .installed b.path ∧
      ("BUNDLE_PATH_" ++ toString 2, b.path) ∈
        (run_hook_install (some "hook.sh") true true 2
          [Bundle.mk "/m/a.raucb" "1", Bundle.mk "/m/b.raucb" "2"]).env :=
  (c1_hook_exit_status "hook.sh" [Bundle.mk "/m/a.raucb" "1", Bundle.mk "/m/b.raucb" "2"] 2
    (by decide)).2.1 (by decide) (by decide)

end Hook

namespace Counter

/-- MainContext fields driving bundle publication paths: `device_count` and
`bundle_dbus_count` are `guint`, so all arithmetic is modulo `2 ^ 32`. -/
structure Ctx where
  device_count : Nat
  bundle_dbus_count : Nat
deriving Repr, DecidableEq

/-- Events touching the two counters: an attach notification (`on_attach`
increments `device_count`), a detach notification (`on_detach` decrements it
and resets `bundle_dbus_count` when it reaches zero), and one bundle
publication (`check_rauc_bundle` pre-increments `bundle_dbus_count`). -/
inductive Ev where
  | attach
  | detach
  | publish
deriving Repr, DecidableEq

/-- Combined counter effect of `on_attach`, `on_detach` and
`check_rauc_bundle` on the MainContext. -/
def step : Ctx → Ev → Ctx
  | c, .attach => { c with device_count := (c.device_count + 1) % GUINT_MOD }
  | c, .detach =>
      let dc := (c.device_count + (GUINT_MOD - 1)) % GUINT_MOD
      { device_count := dc,
        bundle_dbus_count := if dc = 0 then 0 else c.bundle_dbus_count }
  | c, .publish =>
      { c with bundle_dbus_count := (c.bundle_dbus_count + 1) % GUINT_MOD }

/-- Run a sequence of counter events. -/
def run (c : Ctx) (evs : List Ev) : Ctx := List.foldl step c evs

/-- Counter values assigned to successive bundle publications along a run
(`check_rauc_bundle` uses the pre-incremented counter in the object path). -/
def pubs : Ctx → List Ev → List Nat
  | _, [] => []
  | c, e :: es =>
    match e with
    | .publish => ((c.bundle_dbus_count + 1) % GUINT_MOD) :: pubs (step c .publish) es
    | _ => pubs (step c e) es

/-- Decides that no detach event along the run drives `device_count` to zero,
i.e. that the bundle counter is never explicitly reset during the run. -/
def resetFree : Ctx → List Ev → Bool
  | _, [] => true
  | c, e :: es =>
    (match e with
     | .detach => decide ((c.device_count + (GUINT_MOD - 1)) % GUINT_MOD ≠ 0)
     | _ => true) && resetFree (step c e) es

theorem resetFree_replicate_publish (n : Nat) (c : Ctx) :
    resetFree c (List.replicate n .publish) = true := by
  induction n generalizing c with
  | zero => rfl
  | succ m ih => simp [List.replicate_succ, resetFree, ih]

theorem pubs_replicate_publish (n : Nat) (c : Ctx) :
    pubs c (List.replicate n .publish) =
      (List.range n).map (fun i => (c.bundle_dbus_count + i + 1) % GUINT_MOD) := by
  induction n generalizing c with
  | zero => rfl
  | succ m ih =>
    rw [List.replicate_succ]
    rw [List.range_succ_eq_map]
    simp only [pubs, ih, step, List.map_cons, List.map_map]
    congr 1
    simp only [List.map_inj_left, Function.comp_apply, Nat.succ_eq_add_one, GUINT_MOD]
    intro a _
    omega

theorem pubs_aux (evs : List Ev) : ∀ c : Ctx, resetFree c evs = true →
    c.bundle_dbus_count + evs.count .publish < GUINT_MOD →
    List.Chain' (· < ·) (pubs c evs) ∧
    ∀ v ∈ pubs c evs, c.bundle_dbus_count < v := by
  induction evs with
  | nil => intro c _ _; simp [pubs]
  | cons e es ih =>
    intro c hrf hbound
    cases e with
    | attach =>
      simp only [resetFree, Bool.true_and] at hrf
      have hc : (step c .attach).bundle_dbus_count = c.bundle_dbus_count := rfl
      have hcount : (Ev.attach :: es).count .publish = es.count .publish := by
        simp [List.count_cons]
      rw [hcount] at hbound
      have := ih (step c .attach) hrf (by rw [hc]; exact hbound)
      simpa [pubs, hc] using this
    | detach =>
      simp only [resetFree, Bool.and_eq_true, decide_eq_true_eq] at hrf
      obtain ⟨hdc, hrf⟩ := hrf
      have hc : (step c .detach).bundle_dbus_count = c.bundle_dbus_count := by
        simp [step, if_neg hdc]
      have hcount : (Ev.detach :: es).count .publish = es.count .publish := by
        simp [List.count_cons]
      rw [hcount] at hbound
      have := ih (step c .detach) hrf (by rw [hc]; exact hbound)
      simpa [pubs, hc] using this
    | publish =>
      simp only [resetFree, Bool.true_and] at hrf
      have hcount : (Ev.publish :: es).count .publish = es.count .publish + 1 := by
        simp [List.count_cons]
      rw [hcount] at hbound
      have hlt : c.bundle_dbus_count + 1 < GUINT_MOD := by omega
      have hval : (c.bundle_dbus_count + 1) % GUINT_MOD = c.bundle_dbus_count + 1 :=
        Nat.mod_eq_of_lt hlt
      have hc : (step c .publish).bundle_dbus_count = c.bundle_dbus_count + 1 := by
        simp [step, hval]
      have := ih (step c .publish) hrf (by rw [hc]; omega)
      obtain ⟨hchain, hmem⟩ := this
      rw [hc] at hmem
      constructor
      · simp only [pubs, hval]
        rw [List.chain'_cons']
        refine ⟨?_, hchain⟩
        intro b hb
        exact hmem b (List.mem_of_mem_head? hb)
      · intro v hv
        simp only [pubs, hval, List.mem_cons] at hv
        rcases hv with h | h
        · omega
        · have := hmem v h
          omega

theorem run_replicate_publish (n : Nat) (c : Ctx)
    (hb : c.bundle_dbus_count < GUINT_MOD) :
    run c (List.replicate n .publish) =
      { c with bundle_dbus_count := (c.bundle_dbus_count + n) % GUINT_MOD } := by
  induction n generalizing c with
  | zero =>
    cases c with
    | mk dc bc =>
      simp only [List.replicate, run, List.foldl_nil, Nat.add_zero]
      rw [Nat.mod_eq_of_lt hb]
  | succ m ih =>
    have hMpos : 0 < GUINT_MOD := by norm_num [GUINT_MOD]
    rw [List.replicate_succ]
    have hstep : run c (Ev.publish :: List.replicate m .publish) =
        run (step c .publish) (List.replicate m .publish) := rfl
    rw [hstep, ih (step c .publish) (Nat.mod_lt _ hMpos)]
    cases c with
    | mk dc bc =>
      simp only [step]
      congr 1
      rw [Nat.mod_add_mod]
      congr 1
      omega

theorem pubs_two_wrap (c : Ctx) (h : c.bundle_dbus_count = GUINT_MOD - 2) :
    pubs c [Ev.publish, Ev.publish] = [GUINT_MOD - 1, 0] := by
  have h2M : 2 ≤ GUINT_MOD := by norm_num [GUINT_MOD]
  simp only [pubs, step, h]
  rw [show GUINT_MOD - 2 + 1 = GUINT_MOD - 1 by omega]
  rw [Nat.mod_eq_of_lt (show GUINT_MOD - 1 < GUINT_MOD by omega)]
  rw [show GUINT_MOD - 1 + 1 = GUINT_MOD by omega, Nat.mod_self]

theorem pubs_append (xs ys : List Ev) : ∀ c : Ctx,
    pubs c (xs ++ ys) = pubs c xs ++ pubs (run c xs) ys := by
  induction xs with
  | nil => intro c; simp [pubs, run]
  | cons x xt ih =>
    intro c
    cases x <;> simp [pubs, run, List.foldl_cons, ih (step c _)]

/-- Counterexample to C2 as stated: `bundle_dbus_count` is a `guint`, so after
`2 ^ 32` publications without an intervening reset the counter wraps to 0 and
the last published value is not strictly larger than its predecessor, even
though the run is reset-free. -/
theorem c2_counter_reset_counterexample :
    resetFree ⟨1, 0⟩ (List.replicate GUINT_MOD .publish) = true ∧
    ¬ List.Chain' (· < ·) (pubs ⟨1, 0⟩ (List.replicate GUINT_MOD .publish)) := by
  have hM : GUINT_MOD = 4294967296 := by norm_num [GUINT_MOD]
  refine ⟨resetFree_replicate_publish _ _, ?_⟩
  have hsplit : List.replicate GUINT_MOD Ev.publish =
      List.replicate (GUINT_MOD - 2) Ev.publish ++ List.replicate 2 Ev.publish := by
    rw [← List.replicate_add]
    congr 1
  have h2M : 2 ≤ GUINT_MOD := by norm_num [GUINT_MOD]
  rw [hsplit, pubs_append,
    run_replicate_publish _ _ (show (0 : Nat) < GUINT_MOD by omega)]
  intro hch
  have htail := hch.right_of_append
  have hrep2 : List.replicate 2 Ev.publish = [Ev.publish, Ev.publish] := rfl
  rw [hrep2, pubs_two_wrap _ (by simp)] at htail
  have := List.chain'_cons.mp htail
  omega

/-- C2 (amended): the bundle publication counter is reset to 0 exactly when
the detach-decremented device count reaches zero; a detach that leaves other
disks attached preserves it; an attach never resets it; a publication
strictly increments it while it has not wrapped; and between resets the
published counter values are strictly increasing provided fewer than `2^32`
publications occur since the last reset (the `guint` counter wraps
otherwise). -/
theorem c2_bundle_counter_reset (c : Ctx) (evs : List Ev) :
    (c.device_count = 1 →
      (step c .detach).device_count = 0 ∧
      (step c .detach).bundle_dbus_count = 0) ∧
    (2 ≤ c.device_count → c.device_count < GUINT_MOD →
      (step c .detach).device_count ≠ 0 ∧
      (step c .detach).bundle_dbus_count = c.bundle_dbus_count) ∧
    ((step c .attach).bundle_dbus_count = c.bundle_dbus_count) ∧
    (c.bundle_dbus_count + 1 < GUINT_MOD →
      (step c .publish).bundle_dbus_count = c.bundle_dbus_count + 1) ∧
    (resetFree c evs = true →
      c.bundle_dbus_count + evs.count .publish < GUINT_MOD →
      List.Chain' (· < ·) (pubs c evs)) := by
  have hM : GUINT_MOD = 4294967296 := by norm_num [GUINT_MOD]
  refine ⟨?_, ?_, rfl, ?_, fun h1 h2 => (pubs_aux evs c h1 h2).1⟩
  · intro h1
    have hdc : (c.device_count + (GUINT_MOD - 1)) % GUINT_MOD = 0 := by
      rw [hM, h1]
    refine ⟨hdc, ?_⟩
    simp only [step]
    rw [hdc]
    simp
  · intro h2 h3
    rw [hM] at h3
    have hdc : (c.device_count + (GUINT_MOD - 1)) % GUINT_MOD =
        c.device_count - 1 := by
      rw [hM]
      omega
    constructor
    · simp only [step]
      rw [hdc]
      omega
    · simp only [step]
      rw [hdc, if_neg (by omega)]
  · intro hlt
    simp only [step]
    exact Nat.mod_eq_of_lt hlt

/-- Witness for the amended C2 at concrete inputs: removing the only attached
disk resets the counter to 0, and a reset-free three-event run publishes
strictly increasing counter values. -/
theorem c2_bundle_counter_reset_witness :
    ((step ⟨1, 7⟩ .detach).device_count = 0 ∧
     (step ⟨1, 7⟩ .detach).bundle_dbus_count = 0) ∧
    List.Chain' (· < ·) (pubs ⟨2, 5⟩ [.publish, .detach, .publish]) :=
  ⟨(c2_bundle_counter_reset ⟨1, 7⟩ []).1 rfl,
   (c2_bundle_counter_reset ⟨2, 5⟩ [.publish, .detach, .publish]).2.2.2.2
     (by decide) (by decide)⟩

end Counter

namespace Worker

/-- Errno value `EINVAL` (target not mounted, tolerated by `umount_partition`). -/
def EINVAL : Nat := 22

/-- Errno value `EEXIST` (tolerated by the `g_mkdir_with_parents` check in
`mount_partition`). -/
def EEXIST : Nat := 17

/-- Worker view of one partition device: its kernel name
(`g_udev_device_get_name`), device file (`g_udev_device_get_device_file`) and
`ID_FS_TYPE` property, which may be absent. -/
structure Partition where
  name : String
  devPath : String
  fstype : Option String
deriving Repr, DecidableEq

/-- Observable actions of the worker thread, in emission order: file reads,
syscalls, warnings and the two D-Bus signals. -/
inductive WEv where
  | readFilesystems
  | mkdirCall (dir : String)
  | mountCall (dev dir fstype : String)
  | umountCall (dir : String)
  | warn (msg : String)
  | sigAttach (mountPoints : List String)
  | sigDetach
deriving Repr, DecidableEq

/-- Character-level split used to model `g_strsplit` with a one-character
delimiter; like the C function it keeps empty fields between adjacent
delimiters. -/
def splitChar (c : Char) : List Char → List (List Char)
  | [] => [[]]
  | ch :: rest =>
    match splitChar c rest with
    | [] => [[]]
    | t :: ts => if ch = c then [] :: t :: ts else (ch :: t) :: ts

/-- Whitespace class of `g_ascii_isspace`, used by `g_strstrip`. -/
def isStripChar (c : Char) : Bool :=
  c = ' ' || c = '\t' || c = '\n' || c = '\x0b' || c = '\x0c' || c = '\r'

/-- Embedding of `g_strstrip`: drop leading and trailing whitespace. -/
def stripChars (l : List Char) : List Char :=
  ((l.dropWhile isStripChar).reverse.dropWhile isStripChar).reverse

/-- Embedding of the per-line normalisation in `is_in_filesystem_file`:
`g_strdelimit(line, " \t", ' ')` turns tabs into spaces, then `g_strstrip`
removes surrounding whitespace. -/
def normalizeLine (l : List Char) : List Char :=
  stripChars (l.map (fun ch => if ch = '\t' then ' ' else ch))

/-- Tokens of one normalised line: `g_strsplit(line, " ", -1)`, which yields
no token at all for the empty string. -/
def lineTokens (l : List Char) : List (List Char) :=
  if normalizeLine l = [] then [] else splitChar ' ' (normalizeLine l)

/-- A line accepts `fstype` exactly when it normalises to a single token equal
to it (`num_tokens == 1 && g_strcmp0(tokens[0], fstype) == 0`). -/
def lineMatches (fstype : String) (l : List Char) : Bool :=
  match lineTokens l with
  | [t] => t = fstype.toList
  | _ => false

/-- Embedding of `is_in_filesystem_file` (udev.c): `contents` is the result of
`g_file_get_contents` on the filesystems file (`none` = read error, which
warns and returns FALSE); a `NULL` `fstype` never equals a token. -/
def is_in_filesystem_file (contents : Option String) (fstype : Option String) : Bool :=
  match contents, fstype with
  | none, _ => false
  | some _, none => false
  | some fs, some t => (splitChar '\n' fs.toList).any (lineMatches t)

/-- Environment oracles for `mount_partition`: the filesystems-file contents,
the result of `g_mkdir_with_parents` (`none` = returns 0, `some e` = fails
with errno `e`) and the success of the `mount(2)` syscall. -/
structure MountOracles where
  filesystems : Option String
  mkdirRes : String → Option Nat
  mountOk : String → String → String → Bool

/-- Decides the `g_mkdir_with_parents(...) != 0 && errno != EEXIST` guard. -/
def mkdirFailedHard (o : MountOracles) (dir : String) : Bool :=
  match o.mkdirRes dir with
  | some e => e != EEXIST
  | none => false

/-- Embedding of `mount_partition` (udev.c): check the filesystems file (one
read per call), create the name-derived mount directory, mount, and on
success prepend the directory to the disk's `mount_points`; any failure
warns and leaves the list unchanged. -/
def mount_partition (o : MountOracles) (p : Partition)
    (mount_points : List String) : List String × List WEv :=
  if is_in_filesystem_file o.filesystems p.fstype = false then
    (mount_points, [.readFilesystems])
  else
    let t := p.fstype.getD ""
    let dir := "/run/media/disk-updater/" ++ p.name
    if mkdirFailedHard o dir then
      (mount_points, [.readFilesystems, .mkdirCall dir,
        .warn ("Could not create directory " ++ dir)])
    else if o.mountOk p.devPath dir t = false then
      (mount_points, [.readFilesystems, .mkdirCall dir, .mountCall p.devPath dir t,
        .warn ("Could not mount " ++ p.devPath)])
    else
      (dir :: mount_points,
       [.readFilesystems, .mkdirCall dir, .mountCall p.devPath dir t])

/-- Embedding of `umount_partition` (udev.c): `umount2(dir, MNT_DETACH)` is
always attempted; a failure with errno other than `EINVAL` warns, `EINVAL`
(not currently mounted) is tolerated silently. `ures dir` is the syscall
outcome (`none` = success). -/
def umount_partition (ures : String → Option Nat) (dir : String) : List WEv :=
  .umountCall dir ::
    (match ures dir with
     | some e => if e ≠ EINVAL then [.warn ("Could not unmount " ++ dir)] else []
     | none => [])

/-- Worker view of a `Disk` record at the time its job is popped. -/
structure WDisk where
  attached : Bool
  partitions : List Partition
  mount_points : List String
deriving Repr, DecidableEq

/-- Mount phase of a mount job: `g_slist_foreach(disk->partitions,
mount_partition, disk)` in list order, threading the growing
`mount_points`. -/
def process_mount (o : MountOracles) (parts : List Partition)
    (mount_points : List String) : List String × List WEv :=
  match parts with
  | [] => (mount_points, [])
  | p :: rest =>
    let r := mount_partition o p mount_points
    let r' := process_mount o rest r.1
    (r'.1, r.2 ++ r'.2)

/-- Embedding of the job dispatch in `process_disk_thread_func`: an attached
disk is mounted and the ATTACH signal emitted with the resulting mount point
list; an unattached disk gets the DETACH signal first, then `free_disk`
unmounts every recorded mount point in list order. -/
def process_disk (o : MountOracles) (ures : String → Option Nat)
    (d : WDisk) : List WEv :=
  if d.attached then
    let r := process_mount o d.partitions d.mount_points
    r.2 ++ [.sigAttach r.1]
  else
    .sigDetach :: d.mount_points.flatMap (umount_partition ures)

theorem count_umount_partition (ures : String → Option Nat) (d' dir : String) :
    (umount_partition ures d').count (.umountCall dir) =
      if d' = dir then 1 else 0 := by
  unfold umount_partition
  rcases h : ures d' with - | e
  · simp [List.count_cons]
  · by_cases he : e ≠ EINVAL <;> simp [he, List.count_cons]

theorem count_umount_flatMap (ures : String → Option Nat) (dir : String)
    (mps : List String) :
    (mps.flatMap (umount_partition ures)).count (.umountCall dir) =
      mps.count dir := by
  induction mps with
  | nil => simp
  | cons m rest ih =>
    simp only [List.flatMap_cons, List.count_append, ih, count_umount_partition,
      List.count_cons]
    split
    · simp_all
      omega
    · simp_all

/-- C5: processing an unmount job emits the DETACH notification first, before
any unmount syscall; every recorded mount point is then force-detach
unmounted exactly once regardless of failures, an `EINVAL` failure (not
currently mounted) is tolerated silently while any other failure only warns;
and for zero recorded mount points no unmount syscall happens at all while
the detach notification is still emitted. -/
theorem c5_unmount_job (o : MountOracles) (ures : String → Option Nat)
    (parts : List Partition) (mps : List String) :
    ((process_disk o ures ⟨false, parts, mps⟩).head? = some .sigDetach) ∧
    (∀ dir, (process_disk o ures ⟨false, parts, mps⟩).count (.umountCall dir) =
      mps.count dir) ∧
    (mps = [] → process_disk o ures ⟨false, parts, mps⟩ = [.sigDetach]) ∧
    (∀ dir, ures dir = some EINVAL →
      umount_partition ures dir = [.umountCall dir]) ∧
    (∀ dir e, ures dir = some e → e ≠ EINVAL →
      umount_partition ures dir =
        [.umountCall dir, .warn ("Could not unmount " ++ dir)]) := by
  refine ⟨?_, ?_, ?_, ?_, ?_⟩
  · simp [process_disk]
  · intro dir
    simp [process_disk, List.count_cons, count_umount_flatMap]
  · intro h
    subst h
    simp [process_disk]
  · intro dir h
    simp [umount_partition, h]
  · intro dir e h he
    simp [umount_partition, h, he]

/-- Witness for C5 at a concrete input: two mount points, the first failing
with `EINVAL`, are both unmounted after the leading detach signal. -/
theorem c5_unmount_job_witness :
    ((process_disk ⟨none, fun _ => none, fun _ _ _ => true⟩
        (fun d => if d = "/m1" then some EINVAL else none)
        ⟨false, [], ["/m1", "/m2"]⟩).count (.umountCall "/m1") =
      (["/m1", "/m2"] : List String).count "/m1") ∧
    (umount_partition (fun d => if d = "/m1" then some EINVAL else none) "/m1" =
      [.umountCall "/m1"]) :=
  ⟨(c5_unmount_job ⟨none, fun _ => none, fun _ _ _ => true⟩
      (fun d => if d = "/m1" then some EINVAL else none) [] ["/m1", "/m2"]).2.1 "/m1",
   (c5_unmount_job ⟨none, fun _ => none, fun _ _ _ => true⟩
      (fun d => if d = "/m1" then some EINVAL else none) [] ["/m1", "/m2"]).2.2.2.1
     "/m1" (by decide)⟩

/-- Partitions that all three steps of `mount_partition` succeed on. -/
def mountSucceeds (o : MountOracles) (p : Partition) : Bool :=
  is_in_filesystem_file o.filesystems p.fstype &&
  !(mkdirFailedHard o ("/run/media/disk-updater/" ++ p.name)) &&
  o.mountOk p.devPath ("/run/media/disk-updater/" ++ p.name) (p.fstype.getD "")

/-- Name-derived mount directories of the partitions that mount successfully,
in partition order. -/
def mountedDirs (o : MountOracles) (parts : List Partition) : List String :=
  parts.filterMap (fun p =>
    if mountSucceeds o p then some ("/run/media/disk-updater/" ++ p.name) else none)

theorem mount_partition_fst (o : MountOracles) (p : Partition)
    (mps : List String) :
    (mount_partition o p mps).1 =
      if mountSucceeds o p then ("/run/media/disk-updater/" ++ p.name) :: mps
      else mps := by
  unfold mount_partition mountSucceeds
  rcases hsup : is_in_filesystem_file o.filesystems p.fstype with - | -
  · simp
  · rcases hmk : mkdirFailedHard o ("/run/media/disk-updater/" ++ p.name) with - | -
    · rcases hmo : o.mountOk p.devPath ("/run/media/disk-updater/" ++ p.name)
          (p.fstype.getD "") with - | -
      · simp [hmk, hmo]
      · simp [hmk, hmo]
    · simp [hmk]

theorem mount_partition_read_count (o : MountOracles) (p : Partition)
    (mps : List String) :
    (mount_partition o p mps).2.count .readFilesystems = 1 := by
  unfold mount_partition
  dsimp only
  split
  · rfl
  · split
    · rfl
    · split <;> rfl

theorem mount_partition_no_attach (o : MountOracles) (p : Partition)
    (mps : List String) (l : List String) :
    WEv.sigAttach l ∉ (mount_partition o p mps).2 := by
  unfold mount_partition
  dsimp only
  split
  · simp
  · split
    · simp
    · split <;> simp

theorem process_mount_fst (o : MountOracles) (parts : List Partition) :
    ∀ mps, (process_mount o parts mps).1 = (mountedDirs o parts).reverse ++ mps := by
  induction parts with
  | nil => intro mps; simp [process_mount, mountedDirs]
  | cons p rest ih =>
    intro mps
    simp only [process_mount, ih, mount_partition_fst, mountedDirs,
      List.filterMap_cons]
    rcases h : mountSucceeds o p with - | -
    · simp [h, mountedDirs]
    · simp [h, mountedDirs]

theorem process_mount_read_count (o : MountOracles) (parts : List Partition) :
    ∀ mps, (process_mount o parts mps).2.count .readFilesystems = parts.length := by
  induction parts with
  | nil => intro mps; rfl
  | cons p rest ih =>
    intro mps
    simp only [process_mount, List.count_append, ih, mount_partition_read_count,
      List.length_cons]
    omega

theorem process_mount_no_attach (o : MountOracles) (parts : List Partition) :
    ∀ mps l, WEv.sigAttach l ∉ (process_mount o parts mps).2 := by
  induction parts with
  | nil => intro mps l; simp [process_mount]
  | cons p rest ih =>
    intro mps l
    simp only [process_mount, List.mem_append]
    push_neg
    exact ⟨mount_partition_no_attach o p mps l, ih _ l⟩

/-- C9 (amended): a partition whose filesystem type is absent from the OS's
supported-filesystem list — the well-known system file is read on each
partition check — is skipped without further syscalls; a hard directory
creation failure (errno other than `EEXIST`) or a mount failure warns and
skips only that partition; the job never aborts: every partition is
processed and the ATTACH notification is emitted exactly once, at the end,
with the resulting possibly-empty mount-point list. -/
theorem c9_mount_job (o : MountOracles) (ures : String → Option Nat)
    (p : Partition) (parts : List Partition) (mps : List String) :
    (is_in_filesystem_file o.filesystems p.fstype = false →
      mount_partition o p mps = (mps, [.readFilesystems])) ∧
    (∀ e, is_in_filesystem_file o.filesystems p.fstype = true →
      o.mkdirRes ("/run/media/disk-updater/" ++ p.name) = some e → e ≠ EEXIST →
      mount_partition o p mps = (mps,
        [.readFilesystems, .mkdirCall ("/run/media/disk-updater/" ++ p.name),
         .warn ("Could not create directory " ++
           ("/run/media/disk-updater/" ++ p.name))])) ∧
    (is_in_filesystem_file o.filesystems p.fstype = true →
      mkdirFailedHard o ("/run/media/disk-updater/" ++ p.name) = false →
      o.mountOk p.devPath ("/run/media/disk-updater/" ++ p.name)
        (p.fstype.getD "") = false →
      mount_partition o p mps = (mps,
        [.readFilesystems, .mkdirCall ("/run/media/disk-updater/" ++ p.name),
         .mountCall p.devPath ("/run/media/disk-updater/" ++ p.name)
           (p.fstype.getD ""),
         .warn ("Could not mount " ++ p.devPath)])) ∧
    (process_disk o ures ⟨true, parts, mps⟩ =
      (process_mount o parts mps).2 ++
        [.sigAttach ((mountedDirs o parts).reverse ++ mps)]) ∧
    ((process_disk o ures ⟨true, parts, mps⟩).count .readFilesystems =
      parts.length) ∧
    (∀ l, WEv.sigAttach l ∉ (process_mount o parts mps).2) := by
  refine ⟨?_, ?_, ?_, ?_, ?_, process_mount_no_attach o parts mps⟩
  · intro h
    simp [mount_partition, h]
  · intro e hsup hmk hne
    have hhard : mkdirFailedHard o ("/run/media/disk-updater/" ++ p.name) = true := by
      simp [mkdirFailedHard, hmk, hne]
    simp [mount_partition, hsup, hhard]
  · intro hsup hhard hmo
    simp [mount_partition, hsup, hhard, hmo]
  · simp [process_disk, process_mount_fst]
  · simp [process_disk, List.count_append, process_mount_read_count,
      List.count_cons]

/-- Witness for the amended C9 at a concrete input: a partition of
unsupported type `jfs` is skipped after the filesystems-file read, and a job
over it together with a supported `ext4` partition still ends in the ATTACH
notification. -/
theorem c9_mount_job_witness :
    (mount_partition ⟨some "\text4\n", fun _ => none, fun _ _ t => t = "ext4"⟩
        ⟨"sda2", "/dev/sda2", some "jfs"⟩ [] = ([], [.readFilesystems])) ∧
    (process_disk ⟨some "\text4\n", fun _ => none, fun _ _ t => t = "ext4"⟩
        (fun _ => none)
        ⟨true, [⟨"sda1", "/dev/sda1", some "ext4"⟩,
                ⟨"sda2", "/dev/sda2", some "jfs"⟩], []⟩ =
      (process_mount ⟨some "\text4\n", fun _ => none, fun _ _ t => t = "ext4"⟩
        [⟨"sda1", "/dev/sda1", some "ext4"⟩, ⟨"sda2", "/dev/sda2", some "jfs"⟩] []).2 ++
        [.sigAttach ((mountedDirs
            ⟨some "\text4\n", fun _ => none, fun _ _ t => t = "ext4"⟩
            [⟨"sda1", "/dev/sda1", some "ext4"⟩,
             ⟨"sda2", "/dev/sda2", some "jfs"⟩]).reverse ++ [])]) :=
  ⟨(c9_mount_job ⟨some "\text4\n", fun _ => none, fun _ _ t => t = "ext4"⟩
      (fun _ => none) ⟨"sda2", "/dev/sda2", some "jfs"⟩ [] []).1 (by decide),
   (c9_mount_job ⟨some "\text4\n", fun _ => none, fun _ _ t => t = "ext4"⟩
      (fun _ => none) ⟨"sda1", "/dev/sda1", some "ext4"⟩
      [⟨"sda1", "/dev/sda1", some "ext4"⟩, ⟨"sda2", "/dev/sda2", some "jfs"⟩]
      []).2.2.2.1⟩

/-- Counterexample to C9 as stated: the supported-filesystem file is read
once per partition check, not once; a mount job over two partitions performs
two reads. -/
theorem c9_read_once_counterexample :
    (process_disk ⟨some "ext4", fun _ => none, fun _ _ _ => true⟩ (fun _ => none)
        ⟨true, [⟨"sda1", "/dev/sda1", some "ext4"⟩,
                ⟨"sda2", "/dev/sda2", some "ext4"⟩], []⟩).count .readFilesystems = 2 ∧
    (2 : Nat) ≠ 1 := by
  constructor
  · decide
  · decide

end Worker

namespace Walk
inductive Entry where
  | file (name : String)
  | dir (name : String) (entries : List Entry)
  | symlink (name : String)
deriving Repr
def Entry.name : Entry → String
  | .file n => n
  | .dir n _ => n
  | .symlink n => n
structure DBundle where
  path : String
  version : String
deriving Repr, DecidableEq
structure Env where
  inspect : String → Option (String × String)
  compatible : String
structure St where
  budget : Option Nat
  counter : Nat
  published : List (Nat × String)
  inspected : List String
  examined : List String
deriving Repr, DecidableEq
def tick : Option Nat → Option Nat
  | none => none
  | some k => some (k - 1)
def check_rauc_bundle (env : Env) (st : St) (path : String) : St × Option DBundle :=
  if (".raucb".toList).isSuffixOf path.toList = false then (st, none)
  else
    let st1 := { st with inspected := st.inspected ++ [path] }
    match env.inspect path with
    | none => (st1, none)
    | some (comp, ver) =>
      if comp ≠ env.compatible then (st1, none)
      else
        let idx := (st1.counter + 1) % GUINT_MOD
        ({ st1 with counter := idx, published := st1.published ++ [(idx, path)] },
         some ⟨path, ver⟩)
def walkEntries (env : Env) : St → String → List Entry → List DBundle → St × List DBundle
  | st, _, [], acc => (st, acc)
  | st, path, e :: rest, acc =>
    if st.budget = some 0 then (st, acc)
    else
      let st2 := { st with budget := tick st.budget,
                           examined := st.examined ++ [path ++ "/" ++ e.name] }
      match e with
      | .symlink _ => walkEntries env st2 path rest acc
      | .dir n sub =>
        let r := walkEntries env st2 (path ++ "/" ++ n) sub []
        walkEntries env r.1 path rest (acc ++ r.2)
      | .file n =>
        let r := check_rauc_bundle env st2 (path ++ "/" ++ n)
        match r.2 with
        | some b => walkEntries env r.1 path rest (b :: acc)
        | none => walkEntries env r.1 path rest acc
termination_by _ _ es _ => sizeOf es
decreasing_by all_goals (simp_wf; try omega)

def discover (env : Env) :
    St → List (String × List Entry) → List DBundle → St × List DBundle
  | st, [], acc => (st, acc)
  | st, (mp, es) :: rest, acc =>
    if st.budget = some 0 then (st, acc)
    else
      let st1 := { st with budget := tick st.budget }
      let r := walkEntries env st1 mp es []
      discover env r.1 rest (acc ++ r.2)


theorem check_budget_eq (env : Env) (st : St) (p : String) :
    (check_rauc_bundle env st p).1.budget = st.budget := by
  unfold check_rauc_bundle
  dsimp only
  split
  · rfl
  · rcases h : env.inspect p with - | ⟨comp, ver⟩
    · simp [h]
    · simp only [h]
      split
      · rfl
      · rfl

theorem check_counter_examined_eq (env : Env) (st : St) (p : String) :
    (check_rauc_bundle env st p).1.examined = st.examined := by
  unfold check_rauc_bundle
  dsimp only
  split
  · rfl
  · rcases h : env.inspect p with - | ⟨comp, ver⟩
    · simp [h]
    · simp only [h]
      split
      · rfl
      · rfl

theorem check_logs_extend (env : Env) (st : St) (p : String) :
    (∃ di, (check_rauc_bundle env st p).1.inspected = st.inspected ++ di) ∧
    (∃ dp, (check_rauc_bundle env st p).1.published = st.published ++ dp) := by
  unfold check_rauc_bundle
  dsimp only
  split
  · exact ⟨⟨[], by simp⟩, ⟨[], by simp⟩⟩
  · rcases h : env.inspect p with - | ⟨comp, ver⟩
    · simp [h]
    · simp only [h]
      split
      · exact ⟨⟨[p], rfl⟩, ⟨[], by simp⟩⟩
      · exact ⟨⟨[p], rfl⟩, ⟨[((st.counter + 1) % GUINT_MOD, p)], rfl⟩⟩

theorem walk_cancelled (env : Env) (st : St) (path : String) (es : List Entry)
    (acc : List DBundle) (h : st.budget = some 0) :
    walkEntries env st path es acc = (st, acc) := by
  cases es with
  | nil => simp [walkEntries]
  | cons e rest => simp [walkEntries, h]

theorem walk_budget_none (env : Env) :
    ∀ st path es acc, st.budget = none →
      (walkEntries env st path es acc).1.budget = none := by
  intro st path es acc
  induction st, path, es, acc using walkEntries.induct env with
  | case1 st path acc => intro h; simpa [walkEntries] using h
  | case2 st path e rest acc hc =>
    intro h
    rw [h] at hc
    simp at hc
  | case3 st path rest acc hc name st2 ih =>
    intro h
    simp only [walkEntries, if_neg hc]
    exact ih (by simp [tick, h])
  | case4 st path rest acc hc n sub st2 r ihA ihB ihC =>
    intro h
    simp only [walkEntries, if_neg hc]
    apply ihC
    apply ihB
    simp [tick, h]
  | case5 st path rest acc hc n b st2 r hb ih =>
    intro h
    simp only [st2, r] at hb
    simp only [walkEntries, if_neg hc, hb]
    apply ih
    simp only [r, st2, check_budget_eq]
    simp [tick, h]
  | case6 st path rest acc hc n st2 r hb ih =>
    intro h
    simp only [st2, r] at hb
    simp only [walkEntries, if_neg hc, hb]
    apply ih
    simp only [r, st2, check_budget_eq]
    simp [tick, h]

/-- State `t` extends state `s`: all three logs of `s` are initial segments
of those of `t`. -/
def Extends (s t : St) : Prop :=
  (∃ dp, t.published = s.published ++ dp) ∧
  (∃ di, t.inspected = s.inspected ++ di) ∧
  (∃ de, t.examined = s.examined ++ de)

theorem Extends.refl (s : St) : Extends s s :=
  ⟨⟨[], by simp⟩, ⟨[], by simp⟩, ⟨[], by simp⟩⟩

theorem Extends.trans {s t u : St} (h1 : Extends s t) (h2 : Extends t u) :
    Extends s u := by
  obtain ⟨⟨dp1, hp1⟩, ⟨di1, hi1⟩, ⟨de1, he1⟩⟩ := h1
  obtain ⟨⟨dp2, hp2⟩, ⟨di2, hi2⟩, ⟨de2, he2⟩⟩ := h2
  exact ⟨⟨dp1 ++ dp2, by rw [hp2, hp1, List.append_assoc]⟩,
         ⟨di1 ++ di2, by rw [hi2, hi1, List.append_assoc]⟩,
         ⟨de1 ++ de2, by rw [he2, he1, List.append_assoc]⟩⟩

theorem check_extends (env : Env) (st : St) (p : String) :
    Extends st (check_rauc_bundle env st p).1 := by
  obtain ⟨hi, hp⟩ := check_logs_extend env st p
  exact ⟨hp, hi, ⟨[], by rw [check_counter_examined_eq, List.append_nil]⟩⟩

theorem walk_extends (env : Env) :
    ∀ st path es acc, Extends st (walkEntries env st path es acc).1 := by
  intro st path es acc
  induction st, path, es, acc using walkEntries.induct env with
  | case1 st path acc => simp only [walkEntries]; exact Extends.refl st
  | case2 st path e rest acc hc =>
    rw [walk_cancelled env st path _ acc hc]
    exact Extends.refl st
  | case3 st path rest acc hc name st2 ih =>
    simp only [walkEntries, if_neg hc]
    refine Extends.trans ?_ ih
    exact ⟨⟨[], by simp⟩, ⟨[], by simp⟩,
      ⟨[path ++ "/" ++ (Entry.symlink name).name], rfl⟩⟩
  | case4 st path rest acc hc n sub st2 r ihA ihB ihC =>
    simp only [walkEntries, if_neg hc]
    refine Extends.trans ?_ (Extends.trans ihB ihC)
    exact ⟨⟨[], by simp⟩, ⟨[], by simp⟩,
      ⟨[path ++ "/" ++ (Entry.dir n sub).name], rfl⟩⟩
  | case5 st path rest acc hc n b st2 r hb ih =>
    simp only [st2, r] at hb
    simp only [walkEntries, if_neg hc, hb]
    refine Extends.trans ?_ (Extends.trans (check_extends env _ _) ih)
    exact ⟨⟨[], by simp⟩, ⟨[], by simp⟩,
      ⟨[path ++ "/" ++ (Entry.file n).name], rfl⟩⟩
  | case6 st path rest acc hc n st2 r hb ih =>
    simp only [st2, r] at hb
    simp only [walkEntries, if_neg hc, hb]
    refine Extends.trans ?_ (Extends.trans (check_extends env _ _) ih)
    exact ⟨⟨[], by simp⟩, ⟨[], by simp⟩,
      ⟨[path ++ "/" ++ (Entry.file n).name], rfl⟩⟩

theorem walk_budget_isSome (env : Env) :
    ∀ st path es acc, st.budget.isSome = true →
      (walkEntries env st path es acc).1.budget.isSome = true := by
  intro st path es acc
  induction st, path, es, acc using walkEntries.induct env with
  | case1 st path acc => intro h; simpa [walkEntries] using h
  | case2 st path e rest acc hc =>
    intro h
    rw [walk_cancelled env st path _ acc hc]
    exact h
  | case3 st path rest acc hc name st2 ih =>
    intro h
    obtain ⟨k, hk⟩ := Option.isSome_iff_exists.mp h
    simp only [walkEntries, if_neg hc]
    exact ih (by simp [tick, hk])
  | case4 st path rest acc hc n sub st2 r ihA ihB ihC =>
    intro h
    obtain ⟨k, hk⟩ := Option.isSome_iff_exists.mp h
    simp only [walkEntries, if_neg hc]
    apply ihC
    apply ihB
    simp [tick, hk]
  | case5 st path rest acc hc n b st2 r hb ih =>
    intro h
    obtain ⟨k, hk⟩ := Option.isSome_iff_exists.mp h
    simp only [st2, r] at hb
    simp only [walkEntries, if_neg hc, hb]
    apply ih
    simp only [r, st2, check_budget_eq]
    simp [tick, hk]
  | case6 st path rest acc hc n st2 r hb ih =>
    intro h
    obtain ⟨k, hk⟩ := Option.isSome_iff_exists.mp h
    simp only [st2, r] at hb
    simp only [walkEntries, if_neg hc, hb]
    apply ih
    simp only [r, st2, check_budget_eq]
    simp [tick, hk]

theorem budget_eta (s : St) (h : s.budget = none) : { s with budget := none } = s := by
  cases s with
  | mk b c p i e =>
    simp only at h
    rw [h]


theorem check_budget_set (env : Env) (st : St) (p : String) (b : Option Nat) :
    check_rauc_bundle env { st with budget := b } p =
      ({ (check_rauc_bundle env st p).1 with budget := b },
       (check_rauc_bundle env st p).2) := by
  unfold check_rauc_bundle
  dsimp only
  split
  · rfl
  · rcases h : env.inspect p with - | ⟨comp, ver⟩
    · simp [h]
    · simp only [h]
      split
      · rfl
      · rfl

theorem walk_lockstep (env : Env) :
    ∀ es st path acc, st.budget.isSome = true →
      (((walkEntries env st path es acc).1.budget = some 0 ∧
        Extends (walkEntries env st path es acc).1
          (walkEntries env { st with budget := none } path es acc).1) ∨
       ((walkEntries env st path es acc).1 =
          { (walkEntries env { st with budget := none } path es acc).1 with
            budget := (walkEntries env st path es acc).1.budget } ∧
        (walkEntries env st path es acc).2 =
          (walkEntries env { st with budget := none } path es acc).2)) := by
  suffices H : ∀ N es st path acc, sizeOf (es : List Entry) ≤ N →
      (st : St).budget.isSome = true →
      (((walkEntries env st path es acc).1.budget = some 0 ∧
        Extends (walkEntries env st path es acc).1
          (walkEntries env { st with budget := none } path es acc).1) ∨
       ((walkEntries env st path es acc).1 =
          { (walkEntries env { st with budget := none } path es acc).1 with
            budget := (walkEntries env st path es acc).1.budget } ∧
        (walkEntries env st path es acc).2 =
          (walkEntries env { st with budget := none } path es acc).2)) by
    intro es st path acc hs
    exact H (sizeOf es) es st path acc le_rfl hs
  intro N
  induction N with
  | zero =>
    intro es st path acc hsz hs
    exfalso
    cases es <;> simp at hsz
  | succ N ihN =>
    intro es st path acc hsz hs
    obtain ⟨k, hk⟩ := Option.isSome_iff_exists.mp hs
    cases es with
    | nil =>
      right
      refine ⟨?_, ?_⟩ <;> simp [walkEntries]
    | cons e rest =>
      by_cases hc : st.budget = some 0
      · left
        rw [walk_cancelled env st path _ acc hc]
        refine ⟨hc, ?_⟩
        exact walk_extends env { st with budget := none } path (e :: rest) acc
      · have hkne : k ≠ 0 := fun h => hc (by rw [hk, h])
        have hk0 : ¬ (some k : Option Nat) = some 0 := by simpa using hkne
        have hn0 : ¬ (none : Option Nat) = some 0 := by simp
        have hsz' : sizeOf rest ≤ N := by simp at hsz; omega
        cases e with
        | symlink name =>
          simp only [walkEntries, hk, tick, Entry.name, if_neg hk0, if_neg hn0]
          exact ihN rest _ path acc hsz' (by simp)
        | file n =>
          simp only [walkEntries, hk, tick, Entry.name, if_neg hk0, if_neg hn0]
          rw [check_budget_set env
            { st with budget := some (k - 1),
                      examined := st.examined ++ [path ++ "/" ++ n] }
            (path ++ "/" ++ n) none]
          rcases h2 : (check_rauc_bundle env
              { st with budget := some (k - 1),
                        examined := st.examined ++ [path ++ "/" ++ n] }
              (path ++ "/" ++ n)).2 with - | b
          · dsimp only
            exact ihN rest _ path acc hsz'
              (by rw [check_budget_eq]; simp)
          · dsimp only
            exact ihN rest _ path (b :: acc) hsz'
              (by rw [check_budget_eq]; simp)
        | dir n sub =>
          have hszs : sizeOf sub ≤ N := by simp at hsz; omega
          simp only [walkEntries, hk, tick, Entry.name, if_neg hk0, if_neg hn0]
          have hsub := ihN sub
            { st with budget := some (k - 1),
                      examined := st.examined ++ [path ++ "/" ++ n] }
            (path ++ "/" ++ n) [] hszs (by simp)
          rcases hsub with ⟨h0, hext⟩ | ⟨heq, hbeq⟩
          · left
            rw [walk_cancelled env _ path rest _ h0]
            refine ⟨h0, ?_⟩
            exact Extends.trans hext (walk_extends env _ path rest _)
          · have hr1s : (walkEntries env
                { st with budget := some (k - 1),
                          examined := st.examined ++ [path ++ "/" ++ n] }
                (path ++ "/" ++ n) sub []).1.budget.isSome = true :=
              walk_budget_isSome env _ _ _ _ (by simp)
            have hrnone : (walkEntries env
                { st with budget := none,
                          examined := st.examined ++ [path ++ "/" ++ n] }
                (path ++ "/" ++ n) sub []).1.budget = none :=
              walk_budget_none env _ _ _ _ rfl
            have hbe : ({ (walkEntries env
                { st with budget := some (k - 1),
                          examined := st.examined ++ [path ++ "/" ++ n] }
                (path ++ "/" ++ n) sub []).1 with budget := none } : St) =
                (walkEntries env
                { st with budget := none,
                          examined := st.examined ++ [path ++ "/" ++ n] }
                (path ++ "/" ++ n) sub []).1 := by
              rw [heq]
              exact budget_eta _ hrnone
            have hrest := ihN rest
              (walkEntries env
                { st with budget := some (k - 1),
                          examined := st.examined ++ [path ++ "/" ++ n] }
                (path ++ "/" ++ n) sub []).1 path
              (acc ++ (walkEntries env
                { st with budget := some (k - 1),
                          examined := st.examined ++ [path ++ "/" ++ n] }
                (path ++ "/" ++ n) sub []).2) hsz' hr1s
            rw [hbe] at hrest
            rw [hbeq] at hrest ⊢
            exact hrest

theorem check_none_published (env : Env) (st : St) (p : String) :
    (check_rauc_bundle env st p).2 = none →
    (check_rauc_bundle env st p).1.published = st.published := by
  unfold check_rauc_bundle
  dsimp only
  split
  · intro _; rfl
  · rcases h : env.inspect p with - | ⟨comp, ver⟩
    · simp [h]
    · simp only [h]
      split
      · intro _; rfl
      · intro hf; simp at hf

theorem check_some_spec (env : Env) (st : St) (p : String) (b : DBundle) :
    (check_rauc_bundle env st p).2 = some b →
      b.path = p ∧
      (check_rauc_bundle env st p).1.published =
        st.published ++ [((st.counter + 1) % GUINT_MOD, p)] := by
  unfold check_rauc_bundle
  dsimp only
  split
  · intro hf; simp at hf
  · rcases h : env.inspect p with - | ⟨comp, ver⟩
    · simp [h]
    · simp only [h]
      split
      · intro hf; simp at hf
      · intro hb
        simp only [Option.some_inj] at hb
        subst hb
        exact ⟨rfl, rfl⟩

theorem walk_published_delta (env : Env) :
    ∀ es st path acc, ∃ dp,
      (walkEntries env st path es acc).1.published = st.published ++ dp ∧
      ((walkEntries env st path es acc).2.map DBundle.path).Perm
        ((acc.map DBundle.path) ++ dp.map Prod.snd) := by
  suffices H : ∀ N es st path acc, sizeOf (es : List Entry) ≤ N → ∃ dp,
      (walkEntries env st path es acc).1.published = st.published ++ dp ∧
      ((walkEntries env st path es acc).2.map DBundle.path).Perm
        ((acc.map DBundle.path) ++ dp.map Prod.snd) by
    intro es st path acc
    exact H (sizeOf es) es st path acc le_rfl
  intro N
  induction N with
  | zero =>
    intro es st path acc hsz
    exfalso
    cases es <;> simp at hsz
  | succ N ihN =>
    intro es st path acc hsz
    cases es with
    | nil =>
      refine ⟨[], ?_, ?_⟩ <;> simp [walkEntries]
    | cons e rest =>
      by_cases hc : st.budget = some 0
      · rw [walk_cancelled env st path _ acc hc]
        refine ⟨[], by simp, by simp⟩
      · have hsz' : sizeOf rest ≤ N := by simp at hsz; omega
        cases e with
        | symlink name =>
          simp only [walkEntries, if_neg hc, Entry.name]
          exact ihN rest _ path acc hsz'
        | file n =>
          simp only [walkEntries, if_neg hc, Entry.name]
          rcases h2 : (check_rauc_bundle env
              { st with budget := tick st.budget,
                        examined := st.examined ++ [path ++ "/" ++ n] }
              (path ++ "/" ++ n)).2 with - | b
          · obtain ⟨dp, hpub, hperm⟩ := ihN rest
              (check_rauc_bundle env
                { st with budget := tick st.budget,
                          examined := st.examined ++ [path ++ "/" ++ n] }
                (path ++ "/" ++ n)).1 path acc hsz'
            refine ⟨dp, ?_, hperm⟩
            rw [hpub, check_none_published env _ _ h2]
          · obtain ⟨hbp, hcp⟩ := check_some_spec env _ _ _ h2
            obtain ⟨dp, hpub, hperm⟩ := ihN rest
              (check_rauc_bundle env
                { st with budget := tick st.budget,
                          examined := st.examined ++ [path ++ "/" ++ n] }
                (path ++ "/" ++ n)).1 path (b :: acc) hsz'
            refine ⟨((st.counter + 1) % GUINT_MOD, path ++ "/" ++ n) :: dp, ?_, ?_⟩
            · rw [hpub, hcp]
              simp
            · refine hperm.trans ?_
              simp only [List.map_cons, hbp]
              exact List.perm_middle.symm
        | dir n sub =>
          have hszs : sizeOf sub ≤ N := by simp at hsz; omega
          simp only [walkEntries, if_neg hc, Entry.name]
          obtain ⟨dp1, hpub1, hperm1⟩ := ihN sub
            { st with budget := tick st.budget,
                      examined := st.examined ++ [path ++ "/" ++ n] }
            (path ++ "/" ++ n) [] hszs
          obtain ⟨dp2, hpub2, hperm2⟩ := ihN rest
            (walkEntries env
              { st with budget := tick st.budget,
                        examined := st.examined ++ [path ++ "/" ++ n] }
              (path ++ "/" ++ n) sub []).1 path
            (acc ++ (walkEntries env
              { st with budget := tick st.budget,
                        examined := st.examined ++ [path ++ "/" ++ n] }
              (path ++ "/" ++ n) sub []).2) hsz'
          refine ⟨dp1 ++ dp2, ?_, ?_⟩
          · rw [hpub2, hpub1]
            simp
          · refine hperm2.trans ?_
            simp only [List.map_append]
            rw [List.append_assoc]
            refine List.Perm.append_left _ ?_
            exact (hperm1.trans (by simp)).append_right _

theorem discover_cancelled (env : Env) (st : St)
    (mps : List (String × List Entry)) (acc : List DBundle)
    (h : st.budget = some 0) :
    discover env st mps acc = (st, acc) := by
  cases mps with
  | nil => simp [discover]
  | cons mp rest =>
    rcases mp with ⟨m, es⟩
    simp [discover, h]

theorem discover_extends (env : Env) :
    ∀ mps st acc, Extends st (discover env st mps acc).1 := by
  intro mps
  induction mps with
  | nil =>
    intro st acc
    simp only [discover]
    exact Extends.refl st
  | cons mp rest ih =>
    intro st acc
    rcases mp with ⟨m, es⟩
    by_cases hc : st.budget = some 0
    · rw [discover_cancelled env st _ acc hc]
      exact Extends.refl st
    · simp only [discover, if_neg hc]
      refine Extends.trans ?_ (Extends.trans (walk_extends env _ m es []) (ih _ _))
      exact ⟨⟨[], by simp⟩, ⟨[], by simp⟩, ⟨[], by simp⟩⟩

theorem discover_budget_none (env : Env) :
    ∀ mps st acc, st.budget = none →
      (discover env st mps acc).1.budget = none := by
  intro mps
  induction mps with
  | nil => intro st acc h; simpa [discover] using h
  | cons mp rest ih =>
    intro st acc h
    rcases mp with ⟨m, es⟩
    have hc : ¬ st.budget = some 0 := by simp [h]
    simp only [discover, if_neg hc]
    apply ih
    apply walk_budget_none
    simp [tick, h]

theorem discover_budget_isSome (env : Env) :
    ∀ mps st acc, st.budget.isSome = true →
      (discover env st mps acc).1.budget.isSome = true := by
  intro mps
  induction mps with
  | nil => intro st acc h; simpa [discover] using h
  | cons mp rest ih =>
    intro st acc h
    rcases mp with ⟨m, es⟩
    obtain ⟨k, hk⟩ := Option.isSome_iff_exists.mp h
    by_cases hc : st.budget = some 0
    · rw [discover_cancelled env st _ acc hc]
      exact h
    · simp only [discover, if_neg hc]
      apply ih
      apply walk_budget_isSome
      simp [tick, hk]

theorem discover_lockstep (env : Env) :
    ∀ mps st acc, st.budget.isSome = true →
      (((discover env st mps acc).1.budget = some 0 ∧
        Extends (discover env st mps acc).1
          (discover env { st with budget := none } mps acc).1) ∨
       ((discover env st mps acc).1 =
          { (discover env { st with budget := none } mps acc).1 with
            budget := (discover env st mps acc).1.budget } ∧
        (discover env st mps acc).2 =
          (discover env { st with budget := none } mps acc).2)) := by
  intro mps
  induction mps with
  | nil =>
    intro st acc hs
    right
    refine ⟨?_, ?_⟩ <;> simp [discover]
  | cons mp rest ih =>
    intro st acc hs
    obtain ⟨k, hk⟩ := Option.isSome_iff_exists.mp hs
    rcases mp with ⟨m, es⟩
    by_cases hc : st.budget = some 0
    · left
      rw [discover_cancelled env st _ acc hc]
      exact ⟨hc, discover_extends env _ { st with budget := none } acc⟩
    · have hkne : k ≠ 0 := fun h => hc (by rw [hk, h])
      have hk0 : ¬ (some k : Option Nat) = some 0 := by simpa using hkne
      have hn0 : ¬ (none : Option Nat) = some 0 := by simp
      simp only [discover, hk, tick, if_neg hk0, if_neg hn0]
      have hws := walk_lockstep env es { st with budget := some (k - 1) } m []
        (by simp)
      rcases hws with ⟨h0, hext⟩ | ⟨heq, hbeq⟩
      · left
        rw [discover_cancelled env _ rest _ h0]
        refine ⟨h0, ?_⟩
        exact Extends.trans hext (discover_extends env rest _ _)
      · have hr1s : (walkEntries env { st with budget := some (k - 1) }
            m es []).1.budget.isSome = true :=
          walk_budget_isSome env _ _ _ _ (by simp)
        have hrnone : (walkEntries env { st with budget := none }
            m es []).1.budget = none :=
          walk_budget_none env _ _ _ _ rfl
        have hbe : ({ (walkEntries env { st with budget := some (k - 1) }
            m es []).1 with budget := none } : St) =
            (walkEntries env { st with budget := none } m es []).1 := by
          rw [heq]
          exact budget_eta _ hrnone
        have hrest := ih (walkEntries env { st with budget := some (k - 1) }
            m es []).1
          (acc ++ (walkEntries env { st with budget := some (k - 1) } m es []).2)
          hr1s
        rw [hbe] at hrest
        rw [hbeq] at hrest ⊢
        exact hrest

theorem discover_published_delta (env : Env) :
    ∀ mps st acc, ∃ dp,
      (discover env st mps acc).1.published = st.published ++ dp ∧
      ((discover env st mps acc).2.map DBundle.path).Perm
        ((acc.map DBundle.path) ++ dp.map Prod.snd) := by
  intro mps
  induction mps with
  | nil =>
    intro st acc
    refine ⟨[], ?_, ?_⟩ <;> simp [discover]
  | cons mp rest ih =>
    intro st acc
    rcases mp with ⟨m, es⟩
    by_cases hc : st.budget = some 0
    · rw [discover_cancelled env st _ acc hc]
      exact ⟨[], by simp, by simp⟩
    · simp only [discover, if_neg hc]
      obtain ⟨dp1, hpub1, hperm1⟩ := walk_published_delta env es
        { st with budget := tick st.budget } m []
      obtain ⟨dp2, hpub2, hperm2⟩ := ih
        (walkEntries env { st with budget := tick st.budget } m es []).1
        (acc ++ (walkEntries env { st with budget := tick st.budget } m es []).2)
      refine ⟨dp1 ++ dp2, ?_, ?_⟩
      · rw [hpub2, hpub1]
        simp
      · refine hperm2.trans ?_
        simp only [List.map_append]
        rw [List.append_assoc]
        refine List.Perm.append_left _ ?_
        exact (hperm1.trans (by simp)).append_right _

/-- Acceptance predicate of `check_rauc_bundle` on one path: suffix test
passes, Inspect succeeds, and the reported compatible equals the system
compatible. -/
def accepted (env : Env) (p : String) : Bool :=
  (".raucb".toList).isSuffixOf p.toList &&
  (match env.inspect p with
   | some (comp, _) => comp == env.compatible
   | none => false)


theorem check_isSome_accepted (env : Env) (st : St) (p : String) :
    ((check_rauc_bundle env st p).2).isSome = accepted env p := by
  unfold check_rauc_bundle accepted
  dsimp only
  rcases hsuf : (".raucb".toList).isSuffixOf p.toList with - | -
  · simp
  · rw [if_neg (by simp : ¬ (true = false))]
    rcases h : env.inspect p with - | ⟨comp, ver⟩
    · simp [h]
    · simp only [h]
      by_cases hcomp : comp = env.compatible
      · rw [if_neg (by simpa using hcomp)]
        simp [hcomp]
      · rw [if_pos (by simpa using hcomp)]
        simp [hcomp]

theorem check_snd_state_indep (env : Env) (st1 st2 : St) (p : String) :
    (check_rauc_bundle env st1 p).2 = (check_rauc_bundle env st2 p).2 := by
  unfold check_rauc_bundle
  dsimp only
  split
  · rfl
  · rcases h : env.inspect p with - | ⟨comp, ver⟩
    · simp [h]
    · simp only [h]
      split
      · rfl
      · rfl

theorem walk_append (env : Env) :
    ∀ es1 es2 st path acc,
      walkEntries env st path (es1 ++ es2) acc =
        walkEntries env (walkEntries env st path es1 acc).1 path es2
          (walkEntries env st path es1 acc).2 := by
  intro es1
  induction es1 with
  | nil =>
    intro es2 st path acc
    simp [walkEntries]
  | cons e es1 ih =>
    intro es2 st path acc
    by_cases hc : st.budget = some 0
    · rw [List.cons_append, walk_cancelled env st path _ acc hc,
        walk_cancelled env st path _ acc hc]
      exact (walk_cancelled env st path es2 acc hc).symm
    · cases e with
      | symlink name =>
        simp only [List.cons_append, walkEntries, if_neg hc, Entry.name]
        exact ih es2 _ path acc
      | dir n sub =>
        simp only [List.cons_append, walkEntries, if_neg hc, Entry.name]
        exact ih es2 _ path _
      | file n =>
        simp only [List.cons_append, walkEntries, if_neg hc, Entry.name]
        rcases h2 : (check_rauc_bundle env
            { st with budget := tick st.budget,
                      examined := st.examined ++ [path ++ "/" ++ n] }
            (path ++ "/" ++ n)).2 with - | b
        · exact ih es2 _ path acc
        · exact ih es2 _ path _

theorem walk_snd_state_indep (env : Env) :
    ∀ es st1 st2 path acc, st1.budget = none → st2.budget = none →
      (walkEntries env st1 path es acc).2 = (walkEntries env st2 path es acc).2 := by
  suffices H : ∀ N es st1 st2 path acc, sizeOf (es : List Entry) ≤ N →
      (st1 : St).budget = none → (st2 : St).budget = none →
      (walkEntries env st1 path es acc).2 = (walkEntries env st2 path es acc).2 by
    intro es st1 st2 path acc h1 h2
    exact H (sizeOf es) es st1 st2 path acc le_rfl h1 h2
  intro N
  induction N with
  | zero =>
    intro es st1 st2 path acc hsz
    exfalso
    cases es <;> simp at hsz
  | succ N ihN =>
    intro es st1 st2 path acc hsz h1 h2
    cases es with
    | nil => simp [walkEntries]
    | cons e rest =>
      have hc1 : ¬ st1.budget = some 0 := by simp [h1]
      have hc2 : ¬ st2.budget = some 0 := by simp [h2]
      have hsz' : sizeOf rest ≤ N := by simp at hsz; omega
      cases e with
      | symlink name =>
        simp only [walkEntries, if_neg hc1, if_neg hc2, Entry.name]
        exact ihN rest _ _ path acc hsz' (by simp [tick, h1]) (by simp [tick, h2])
      | dir n sub =>
        have hszs : sizeOf sub ≤ N := by simp at hsz; omega
        simp only [walkEntries, if_neg hc1, if_neg hc2, Entry.name]
        have hb1 : ({ st1 with
            budget := tick st1.budget,
            examined := st1.examined ++ [path ++ "/" ++ n] } : St).budget = none := by
          simp [tick, h1]
        have hb2 : ({ st2 with
            budget := tick st2.budget,
            examined := st2.examined ++ [path ++ "/" ++ n] } : St).budget = none := by
          simp [tick, h2]
        have hsub := ihN sub _ _ (path ++ "/" ++ n) [] hszs hb1 hb2
        rw [hsub]
        exact ihN rest _ _ path _ hsz'
          (walk_budget_none env _ _ _ _ hb1) (walk_budget_none env _ _ _ _ hb2)
      | file n =>
        simp only [walkEntries, if_neg hc1, if_neg hc2, Entry.name]
        have hcc := check_snd_state_indep env
          { st1 with budget := tick st1.budget,
                     examined := st1.examined ++ [path ++ "/" ++ n] }
          { st2 with budget := tick st2.budget,
                     examined := st2.examined ++ [path ++ "/" ++ n] }
          (path ++ "/" ++ n)
        rcases h2c : (check_rauc_bundle env
            { st1 with budget := tick st1.budget,
                       examined := st1.examined ++ [path ++ "/" ++ n] }
            (path ++ "/" ++ n)).2 with - | b
        · rw [h2c] at hcc
          rw [← hcc]
          exact ihN rest _ _ path acc hsz'
            (by rw [check_budget_eq]; simp [tick, h1])
            (by rw [check_budget_eq]; simp [tick, h2])
        · rw [h2c] at hcc
          rw [← hcc]
          exact ihN rest _ _ path (b :: acc) hsz'
            (by rw [check_budget_eq]; simp [tick, h1])
            (by rw [check_budget_eq]; simp [tick, h2])

theorem walk_files_reverse (env : Env) :
    ∀ es st path acc, st.budget = none →
      (∀ e ∈ es, ∃ n, e = Entry.file n) →
      (walkEntries env st path es acc).2.map DBundle.path =
        (es.filterMap (fun e =>
          if accepted env (path ++ "/" ++ e.name) = true
          then some (path ++ "/" ++ e.name) else none)).reverse ++
          acc.map DBundle.path := by
  intro es
  induction es with
  | nil => intro st path acc _ _; simp [walkEntries]
  | cons e rest ih =>
    intro st path acc hb hf
    obtain ⟨n, rfl⟩ := hf e (by simp)
    have hc : ¬ st.budget = some 0 := by simp [hb]
    simp only [walkEntries, if_neg hc, Entry.name]
    have hacc := check_isSome_accepted env
      { st with budget := tick st.budget,
                examined := st.examined ++ [path ++ "/" ++ n] }
      (path ++ "/" ++ n)
    have hrest : ∀ e ∈ rest, ∃ m, e = Entry.file m := fun e he => hf e (by simp [he])
    have hbr : ((check_rauc_bundle env
        { st with budget := tick st.budget,
                  examined := st.examined ++ [path ++ "/" ++ n] }
        (path ++ "/" ++ n)).1).budget = none := by
      rw [check_budget_eq]
      simp [tick, hb]
    rcases h2 : (check_rauc_bundle env
        { st with budget := tick st.budget,
                  examined := st.examined ++ [path ++ "/" ++ n] }
        (path ++ "/" ++ n)).2 with - | b
    · rw [h2] at hacc
      simp only [Option.isSome_none] at hacc
      rw [ih _ path acc hbr hrest]
      simp only [List.filterMap_cons, Entry.name]
      rw [if_neg (by rw [← hacc]; simp)]
    · rw [h2] at hacc
      simp only [Option.isSome_some] at hacc
      obtain ⟨hbp, -⟩ := check_some_spec env _ _ _ h2
      rw [ih _ path (b :: acc) hbr hrest]
      simp only [List.filterMap_cons, Entry.name]
      rw [if_pos hacc.symm]
      simp [hbp]

theorem discover_acc (env : Env) :
    ∀ mps st acc, (discover env st mps acc).2 = acc ++ (discover env st mps []).2 := by
  intro mps
  induction mps with
  | nil => intro st acc; simp [discover]
  | cons mp rest ih =>
    intro st acc
    rcases mp with ⟨m, es⟩
    by_cases hc : st.budget = some 0
    · rw [discover_cancelled env st _ acc hc, discover_cancelled env st _ [] hc]
      simp
    · simp only [discover, if_neg hc]
      rw [ih _ (acc ++ _), ih _ ([] ++ _)]
      simp

theorem discover_cons_decomp (env : Env) (st : St) (m : String)
    (es : List Entry) (mps : List (String × List Entry)) (acc : List DBundle)
    (hc : ¬ st.budget = some 0) :
    (discover env st ((m, es) :: mps) acc).2 =
      acc ++ (walkEntries env { st with budget := tick st.budget } m es []).2 ++
      (discover env
        (walkEntries env { st with budget := tick st.budget } m es []).1 mps []).2 := by
  simp only [discover, if_neg hc]
  rw [discover_acc]

theorem walk_dir_append (env : Env) (st : St) (path n : String)
    (es sub : List Entry) (acc : List DBundle) (hb : st.budget = none) :
    (walkEntries env st path (es ++ [Entry.dir n sub]) acc).2 =
      (walkEntries env st path es acc).2 ++
      (walkEntries env st (path ++ "/" ++ n) sub []).2 := by
  rw [walk_append]
  have hb1 : (walkEntries env st path es acc).1.budget = none :=
    walk_budget_none env st path es acc hb
  have hc1 : ¬ (walkEntries env st path es acc).1.budget = some 0 := by simp [hb1]
  simp only [walkEntries, if_neg hc1, Entry.name]
  congr 1
  apply walk_snd_state_indep
  · simp [tick, hb1]
  · exact hb

/-- Modelled from the spec: the traversal order the specification claims —
mount point order, then directory-entry read order with depth-first descent
and no sorting — as the list of accepted bundle paths. -/
def specWalkOrder (env : Env) (path : String) : List Entry → List String
  | [] => []
  | e :: rest =>
    match e with
    | .symlink _ => specWalkOrder env path rest
    | .dir n sub =>
      specWalkOrder env (path ++ "/" ++ n) sub ++ specWalkOrder env path rest
    | .file n =>
      (if accepted env (path ++ "/" ++ n) = true then [path ++ "/" ++ n] else []) ++
        specWalkOrder env path rest
termination_by es => sizeOf es
decreasing_by all_goals (simp_wf; try omega)

/-- Modelled from the spec: claimed discovery order over the mount points. -/
def specDiscoverOrder (env : Env) (mps : List (String × List Entry)) : List String :=
  mps.flatMap (fun mp => specWalkOrder env mp.1 mp.2)

/-- Example environment: every Inspect call succeeds with the system
compatible string. -/
def exEnv : Env := ⟨fun _ => some ("sys", "1"), "sys"⟩

/-- Counterexample to C6 as stated: within one directory, sibling
regular-file bundles are prepended (`g_slist_prepend`), so a directory read
as `a.raucb` then `b.raucb` yields the bundle sequence `b` before `a`,
not directory-entry read order. -/
theorem c6_order_counterexample :
    (discover exEnv ⟨none, 0, [], [], []⟩
        [("/m", [Entry.file "a.raucb", Entry.file "b.raucb"])] []).2.map DBundle.path ≠
      specDiscoverOrder exEnv [("/m", [Entry.file "a.raucb", Entry.file "b.raucb"])] := by
  have h1 : (discover exEnv ⟨none, 0, [], [], []⟩
      [("/m", [Entry.file "a.raucb", Entry.file "b.raucb"])] []).2.map DBundle.path =
      ["/m/b.raucb", "/m/a.raucb"] := by
    simp +decide [discover, walkEntries, check_rauc_bundle, tick, Entry.name, exEnv]
  have h2 : specDiscoverOrder exEnv
      [("/m", [Entry.file "a.raucb", Entry.file "b.raucb"])] =
      ["/m/a.raucb", "/m/b.raucb"] := by
    simp +decide [specDiscoverOrder, specWalkOrder, accepted, exEnv]
  rw [h1, h2]
  decide

/-- C4: once a disk's cancellation token is triggered, the discovery walk
over its mount points returns immediately with exactly the bundles already
found. With the token already triggered (`budget = some 0`) the walk
examines no entry and issues no Inspect call; a walk whose token triggers
mid-run performs a prefix of the uncancelled walk's examinations and
Inspect calls (the `Extends` disjunct); and in every run the returned
bundle sequence is, up to the list order described in C6, exactly the set
of bundle objects published during that run — no partially-constructed
bundle is left published. -/
theorem c4_cancellation (env : Env) (st : St)
    (mps : List (String × List Entry)) (acc : List DBundle) :
    (st.budget = some 0 → discover env st mps acc = (st, acc)) ∧
    (st.budget.isSome = true →
      (((discover env st mps acc).1.budget = some 0 ∧
        Extends (discover env st mps acc).1
          (discover env { st with budget := none } mps acc).1) ∨
       ((discover env st mps acc).1 =
          { (discover env { st with budget := none } mps acc).1 with
            budget := (discover env st mps acc).1.budget } ∧
        (discover env st mps acc).2 =
          (discover env { st with budget := none } mps acc).2))) ∧
    (∃ dp, (discover env st mps acc).1.published = st.published ++ dp ∧
      ((discover env st mps acc).2.map DBundle.path).Perm
        ((acc.map DBundle.path) ++ dp.map Prod.snd)) :=
  ⟨fun h => discover_cancelled env st mps acc h,
   fun h => discover_lockstep env mps st acc h,
   discover_published_delta env mps st acc⟩

/-- Witness for C4 at a concrete input: a token already triggered stops the
walk before any entry is examined, and a run whose token has one remaining
check satisfies the cancellation-lockstep disjunction. -/
theorem c4_cancellation_witness :
    (discover exEnv ⟨some 0, 0, [], [], []⟩
        [("/m", [Entry.file "a.raucb", Entry.file "b.raucb"])] [] =
      (⟨some 0, 0, [], [], []⟩, [])) ∧
    (((discover exEnv ⟨some 1, 0, [], [], []⟩
          [("/m", [Entry.file "a.raucb", Entry.file "b.raucb"])] []).1.budget = some 0 ∧
      Extends (discover exEnv ⟨some 1, 0, [], [], []⟩
          [("/m", [Entry.file "a.raucb", Entry.file "b.raucb"])] []).1
        (discover exEnv ⟨none, 0, [], [], []⟩
          [("/m", [Entry.file "a.raucb", Entry.file "b.raucb"])] []).1) ∨
     ((discover exEnv ⟨some 1, 0, [], [], []⟩
          [("/m", [Entry.file "a.raucb", Entry.file "b.raucb"])] []).1 =
        { (discover exEnv ⟨none, 0, [], [], []⟩
            [("/m", [Entry.file "a.raucb", Entry.file "b.raucb"])] []).1 with
          budget := (discover exEnv ⟨some 1, 0, [], [], []⟩
            [("/m", [Entry.file "a.raucb", Entry.file "b.raucb"])] []).1.budget } ∧
      (discover exEnv ⟨some 1, 0, [], [], []⟩
          [("/m", [Entry.file "a.raucb", Entry.file "b.raucb"])] []).2 =
        (discover exEnv ⟨none, 0, [], [], []⟩
          [("/m", [Entry.file "a.raucb", Entry.file "b.raucb"])] []).2)) :=
  ⟨(c4_cancellation exEnv ⟨some 0, 0, [], [], []⟩
      [("/m", [Entry.file "a.raucb", Entry.file "b.raucb"])] []).1 rfl,
   (c4_cancellation exEnv ⟨some 1, 0, [], [], []⟩
      [("/m", [Entry.file "a.raucb", Entry.file "b.raucb"])] []).2.1 rfl⟩

/-- C6 (amended): bundles found under the first mount point precede those
under later mount points; the walk over `es ++ es2` is the walk over `es`
continued over `es2` (depth-first, no sorting); within one directory,
sibling regular-file bundles appear in reverse directory-entry read order;
and a subdirectory's bundles are appended after all bundles accumulated so
far in that directory. -/
theorem c6_traversal_order (env : Env) (st : St) (m path n : String)
    (es es2 sub : List Entry) (mps : List (String × List Entry))
    (acc : List DBundle) :
    (¬ st.budget = some 0 →
      (discover env st ((m, es) :: mps) acc).2 =
        acc ++ (walkEntries env { st with budget := tick st.budget } m es []).2 ++
        (discover env
          (walkEntries env { st with budget := tick st.budget } m es []).1
          mps []).2) ∧
    (walkEntries env st path (es ++ es2) acc =
      walkEntries env (walkEntries env st path es acc).1 path es2
        (walkEntries env st path es acc).2) ∧
    (st.budget = none → (∀ e ∈ es, ∃ nn, e = Entry.file nn) →
      (walkEntries env st path es acc).2.map DBundle.path =
        (es.filterMap (fun e =>
          if accepted env (path ++ "/" ++ e.name) = true
          then some (path ++ "/" ++ e.name) else none)).reverse ++
          acc.map DBundle.path) ∧
    (st.budget = none →
      (walkEntries env st path (es ++ [Entry.dir n sub]) acc).2 =
        (walkEntries env st path es acc).2 ++
        (walkEntries env st (path ++ "/" ++ n) sub []).2) :=
  ⟨fun hc => discover_cons_decomp env st m es mps acc hc,
   walk_append env es es2 st path acc,
   fun hb hf => walk_files_reverse env es st path acc hb hf,
   fun hb => walk_dir_append env st path n es sub acc hb⟩

/-- Witness for the amended C6 at a concrete input: a two-file directory
yields its accepted paths in reverse read order. -/
theorem c6_traversal_order_witness :
    (walkEntries exEnv ⟨none, 0, [], [], []⟩ "/m"
        [Entry.file "a.raucb", Entry.file "b.raucb"] []).2.map DBundle.path =
      ([Entry.file "a.raucb", Entry.file "b.raucb"].filterMap (fun e =>
        if accepted exEnv ("/m" ++ "/" ++ e.name) = true
        then some ("/m" ++ "/" ++ e.name) else none)).reverse ++
        ([] : List DBundle).map DBundle.path :=
  (c6_traversal_order exEnv ⟨none, 0, [], [], []⟩ "/m" "/m" "d"
    [Entry.file "a.raucb", Entry.file "b.raucb"] [] [] [] []).2.2.1 rfl
    (by intro e he
        simp only [List.mem_cons, List.not_mem_nil, or_false] at he
        rcases he with rfl | rfl
        · exact ⟨"a.raucb", rfl⟩
        · exact ⟨"b.raucb", rfl⟩)

/-- C7: a regular file is a discovery candidate iff its name ends with
".raucb" (the Inspect log grows exactly then, and a non-candidate leaves
the state untouched and yields no bundle); a candidate is constructed and
published iff the Inspect call succeeds with a compatible string exactly
equal to the system's; a file failing the suffix test, the Inspect call or
the compatibility test yields no bundle and no published object. -/
theorem c7_bundle_filter (env : Env) (st : St) (p : String) :
    ((".raucb".toList).isSuffixOf p.toList = false →
      check_rauc_bundle env st p = (st, none)) ∧
    ((check_rauc_bundle env st p).1.inspected = st.inspected ++ [p] ↔
      (".raucb".toList).isSuffixOf p.toList = true) ∧
    ((∃ b, (check_rauc_bundle env st p).2 = some b) ↔
      ((".raucb".toList).isSuffixOf p.toList = true ∧
       ∃ v, env.inspect p = some (env.compatible, v))) ∧
    (∀ v, (".raucb".toList).isSuffixOf p.toList = true →
      env.inspect p = some (env.compatible, v) →
      (check_rauc_bundle env st p).2 = some ⟨p, v⟩ ∧
      (check_rauc_bundle env st p).1.published =
        st.published ++ [((st.counter + 1) % GUINT_MOD, p)]) ∧
    ((check_rauc_bundle env st p).2 = none →
      (check_rauc_bundle env st p).1.published = st.published) := by
  refine ⟨?_, ?_, ?_, ?_, check_none_published env st p⟩
  · intro h
    unfold check_rauc_bundle
    rw [if_pos h]
  · constructor
    · intro hins
      by_contra hs
      rw [Bool.not_eq_true] at hs
      have : check_rauc_bundle env st p = (st, none) := by
        unfold check_rauc_bundle
        rw [if_pos hs]
      rw [this] at hins
      simp at hins
    · intro hs
      unfold check_rauc_bundle
      rw [if_neg (by rw [hs]; simp)]
      dsimp only
      rcases h : env.inspect p with - | ⟨comp, ver⟩
      · rfl
      · dsimp only
        by_cases hcomp : comp = env.compatible
        · rw [if_neg (by simpa using hcomp)]
        · rw [if_pos (by simpa using hcomp)]
  · rw [← Option.isSome_iff_exists, check_isSome_accepted]
    unfold accepted
    constructor
    · intro hacc
      rw [Bool.and_eq_true] at hacc
      obtain ⟨hsuf, hmatch⟩ := hacc
      refine ⟨hsuf, ?_⟩
      rcases h : env.inspect p with - | ⟨comp, ver⟩
      · rw [h] at hmatch; simp at hmatch
      · rw [h] at hmatch
        simp only [beq_iff_eq] at hmatch
        exact ⟨ver, by rw [hmatch]⟩
    · rintro ⟨hsuf, v, hv⟩
      rw [Bool.and_eq_true]
      exact ⟨hsuf, by rw [hv]; simp⟩
  · intro v hsuf hv
    unfold check_rauc_bundle
    rw [if_neg (by rw [hsuf]; simp)]
    dsimp only
    rw [hv]
    dsimp only
    rw [if_neg (by simp)]
    exact ⟨rfl, rfl⟩

/-- Witness for C7 at a concrete input: a `.raucb` file whose Inspect
reports the system compatible is returned and published under the
incremented counter. -/
theorem c7_bundle_filter_witness :
    (check_rauc_bundle exEnv ⟨none, 0, [], [], []⟩ "/m/x.raucb").2 =
      some ⟨"/m/x.raucb", "1"⟩ ∧
    (check_rauc_bundle exEnv ⟨none, 0, [], [], []⟩ "/m/x.raucb").1.published =
      ([] : List (Nat × String)) ++ [((0 + 1) % GUINT_MOD, "/m/x.raucb")] :=
  (c7_bundle_filter exEnv ⟨none, 0, [], [], []⟩ "/m/x.raucb").2.2.2.1 "1"
    (by decide) rfl
end Walk

namespace Udev

/-- Monitor view of one `Disk` record: the `attached` flag, the start time
of its quiet-period timer (`g_timer_new` at disk-add, `g_timer_start` on
each partition-add) and the prepended partition list. -/
structure Disk where
  attached : Bool
  last : ℚ
  partitions : List String
deriving DecidableEq

/-- Registry of known disks keyed by `ID_PART_TABLE_UUID`; the list order
models the unspecified hash-table iteration order. -/
abbrev Registry := List (String × Disk)

/-- Debounce window `UDEV_TIMEOUT` (one second). -/
def UDEV_TIMEOUT : ℚ := 1

/-- Rewrite the entries with key `id` to carry disk `d'`. -/
def upd (s : Registry) (id : String) (d' : Disk) : Registry :=
  s.map (fun p => if p.1 = id then (id, d') else p)

/-- Embedding of the partition-add branch of `on_uevent` (udev.c): a known,
not-yet-attached owning disk restarts its quiet-period timer
(`g_timer_start`) and prepends the partition; otherwise a warning is the
only effect. Returns the new registry and whether the warning was logged. -/
def partition_add (s : Registry) (id dev : String) (now : ℚ) :
    Registry × Bool :=
  match s.lookup id with
  | some d =>
    if d.attached then (s, true)
    else (upd s id { d with last := now, partitions := dev :: d.partitions },
          false)
  | none => (s, true)

/-- Embedding of the disk-add branch of `on_uevent`: a fresh unattached disk
with a freshly started timer enters the registry. -/
def disk_add (s : Registry) (id : String) (now : ℚ) : Registry :=
  s ++ [(id, ⟨false, now, []⟩)]

/-- Embedding of the delayed debounce check (udev.c): scan the registry in
iteration order; the first disk that is unattached and quiet for more than
`UDEV_TIMEOUT` is promoted to attached and the check instance terminates
(returns FALSE); if no disk is ready the registry is untouched and the
check re-arms (returns TRUE). -/
def debounce_check : Registry → ℚ → Registry × Bool
  | [], _ => ([], true)
  | (i, d) :: rest, now =>
    if d.attached = false ∧ now - d.last > UDEV_TIMEOUT then
      ((i, { d with attached := true }) :: rest, false)
    else
      let r := debounce_check rest now
      ((i, d) :: r.1, r.2)

/-- Events the debounce machinery reacts to: partition-add uevents and
debounce-check timer ticks, each carrying its arrival time. -/
inductive UEv where
  | padd (id dev : String) (t : ℚ)
  | tick (t : ℚ)

/-- One event of the event context. -/
def ustep (s : Registry) : UEv → Registry
  | .padd id dev t => (partition_add s id dev t).1
  | .tick t => (debounce_check s t).1

/-- Run a sequence of events. -/
def urun (s : Registry) (evs : List UEv) : Registry := evs.foldl ustep s

/-- Whether the registry knows disk `id` as attached. -/
def attachedIn (s : Registry) (id : String) : Bool :=
  match s.lookup id with
  | some d => d.attached
  | none => false

/-- Number of attached disks in the registry. -/
def countAttached (s : Registry) : Nat :=
  s.countP (fun p => p.2.attached)

theorem upd_cons_self (rest : Registry) (id : String) (dk d' : Disk) :
    upd ((id, dk) :: rest) id d' = (id, d') :: upd rest id d' := by
  simp [upd]

theorem upd_cons_other (rest : Registry) (k id : String) (dk d' : Disk)
    (hk : k ≠ id) : upd ((k, dk) :: rest) id d' = (k, dk) :: upd rest id d' := by
  simp [upd, hk]

theorem lookup_upd_self (s : Registry) (id : String) (d d' : Disk)
    (h : s.lookup id = some d) : (upd s id d').lookup id = some d' := by
  induction s with
  | nil => simp [List.lookup] at h
  | cons p rest ih =>
    rcases p with ⟨k, dk⟩
    by_cases hk : k = id
    · subst hk
      rw [upd_cons_self]
      simp [List.lookup]
    · rw [upd_cons_other rest k id dk d' hk]
      simp only [List.lookup, beq_false_of_ne (Ne.symm hk)] at h ⊢
      exact ih h

theorem lookup_upd_other (s : Registry) (id j : String) (d' : Disk)
    (h : j ≠ id) : (upd s id d').lookup j = s.lookup j := by
  induction s with
  | nil => simp [upd]
  | cons p rest ih =>
    rcases p with ⟨k, dk⟩
    by_cases hk : k = id
    · subst hk
      rw [upd_cons_self]
      simp only [List.lookup, beq_false_of_ne h]
      exact ih
    · rw [upd_cons_other rest k id dk d' hk]
      by_cases hkj : j = k
      · subst hkj
        simp [List.lookup]
      · simp only [List.lookup, beq_false_of_ne hkj]
        exact ih


theorem tick_rearm_id (now : ℚ) :
    ∀ s : Registry, (debounce_check s now).2 = true →
      (debounce_check s now).1 = s := by
  intro s
  induction s with
  | nil => intro _; rfl
  | cons p rest ih =>
    rcases p with ⟨i, d⟩
    by_cases hp : d.attached = false ∧ now - d.last > UDEV_TIMEOUT
    · simp [debounce_check, hp]
    · simp only [debounce_check, if_neg hp]
      intro h
      rw [ih h]

theorem tick_count (now : ℚ) :
    ∀ s : Registry,
      ((debounce_check s now).2 = false →
        countAttached (debounce_check s now).1 = countAttached s + 1) ∧
      ((debounce_check s now).2 = true →
        countAttached (debounce_check s now).1 = countAttached s) := by
  intro s
  induction s with
  | nil => exact ⟨fun h => by simp [debounce_check] at h, fun _ => rfl⟩
  | cons p rest ih =>
    rcases p with ⟨i, d⟩
    by_cases hp : d.attached = false ∧ now - d.last > UDEV_TIMEOUT
    · refine ⟨fun _ => ?_, fun h => ?_⟩
      · simp only [debounce_check, if_pos hp]
        simp [countAttached, List.countP_cons, hp.1]
      · simp [debounce_check, hp] at h
    · refine ⟨fun h => ?_, fun h => ?_⟩
      · simp only [debounce_check, if_neg hp] at h ⊢
        simp only [countAttached, List.countP_cons]
        have := ih.1 h
        simp only [countAttached] at this
        omega
      · simp only [debounce_check, if_neg hp] at h ⊢
        simp only [countAttached, List.countP_cons]
        have := ih.2 h
        simp only [countAttached] at this
        omega

theorem tick_promote_valid (now : ℚ) :
    ∀ s : Registry, ∀ i,
      attachedIn (debounce_check s now).1 i = true →
      attachedIn s i = true ∨
        ∃ d, s.lookup i = some d ∧ d.attached = false ∧
          now - d.last > UDEV_TIMEOUT := by
  intro s
  induction s with
  | nil => intro i h; simp [debounce_check] at h; simp [attachedIn, List.lookup] at h
  | cons p rest ih =>
    rcases p with ⟨k, d⟩
    intro i
    by_cases hp : d.attached = false ∧ now - d.last > UDEV_TIMEOUT
    · simp only [debounce_check, if_pos hp]
      by_cases hki : i = k
      · subst hki
        intro _
        right
        exact ⟨d, by simp [List.lookup], hp.1, hp.2⟩
      · simp only [attachedIn, List.lookup, beq_false_of_ne hki]
        intro h
        left
        exact h
    · simp only [debounce_check, if_neg hp]
      by_cases hki : i = k
      · subst hki
        simp only [attachedIn, List.lookup, beq_self_eq_true]
        intro h
        left
        exact h
      · simp only [attachedIn, List.lookup, beq_false_of_ne hki]
        intro h
        rcases ih i h with hl | ⟨dd, hdd, hatt, hq⟩
        · left
          simpa [attachedIn] using hl
        · right
          exact ⟨dd, by simpa [beq_false_of_ne hki], hatt, hq⟩


theorem padd_mono (s : Registry) (id dev : String) (now : ℚ) (j : String)
    (h : attachedIn s j = true) :
    attachedIn (partition_add s id dev now).1 j = true := by
  unfold partition_add
  rcases hl : s.lookup id with - | d
  · simpa [hl] using h
  · by_cases ha : d.attached
    · simpa [hl, ha] using h
    · simp only [hl, if_neg ha]
      by_cases hj : j = id
      · subst hj
        unfold attachedIn at h
        rw [hl] at h
        simp only at h
        rw [h] at ha
        exact absurd rfl ha
      · unfold attachedIn
        rw [lookup_upd_other s id j _ hj]
        exact h

theorem tick_mono (now : ℚ) :
    ∀ s : Registry, ∀ j, attachedIn s j = true →
      attachedIn (debounce_check s now).1 j = true := by
  intro s
  induction s with
  | nil => intro j h; exact h
  | cons p rest ih =>
    rcases p with ⟨k, d⟩
    intro j
    by_cases hp : d.attached = false ∧ now - d.last > UDEV_TIMEOUT
    · simp only [debounce_check, if_pos hp]
      by_cases hkj : j = k
      · subst hkj
        simp only [attachedIn, List.lookup, beq_self_eq_true]
        intro _
        trivial
      · simp only [attachedIn, List.lookup, beq_false_of_ne hkj]
        intro h
        exact h
    · simp only [debounce_check, if_neg hp]
      by_cases hkj : j = k
      · subst hkj
        simp only [attachedIn, List.lookup, beq_self_eq_true]
        intro h
        exact h
      · simp only [attachedIn, List.lookup, beq_false_of_ne hkj]
        intro h
        have := ih j (by simpa [attachedIn, beq_false_of_ne hkj] using h)
        simpa [attachedIn, beq_false_of_ne hkj] using this

theorem ustep_mono (s : Registry) (e : UEv) (j : String)
    (h : attachedIn s j = true) : attachedIn (ustep s e) j = true := by
  cases e with
  | padd id dev t => exact padd_mono s id dev t j h
  | tick t => exact tick_mono t s j h

theorem urun_mono (evs : List UEv) :
    ∀ s : Registry, ∀ j, attachedIn s j = true →
      attachedIn (urun s evs) j = true := by
  induction evs with
  | nil => intro s j h; exact h
  | cons e rest ih =>
    intro s j h
    exact ih (ustep s e) j (ustep_mono s e j h)


/-- Arrival time of the last partition-add of `adds`, or the disk-add time
`t0` when no partition ever arrived. -/
def lastArrival (adds : List (String × ℚ)) (t0 : ℚ) : ℚ :=
  ((adds.getLast?).map Prod.snd).getD t0

theorem lastArrival_cons (a : String × ℚ) (adds : List (String × ℚ)) (t0 : ℚ) :
    lastArrival (a :: adds) t0 = lastArrival adds a.2 := by
  cases adds with
  | nil => simp [lastArrival]
  | cons b bs =>
    obtain ⟨x, hx⟩ : ∃ x, (b :: bs).getLast? = some x :=
      ⟨(b :: bs).getLast (by simp), List.getLast?_eq_getLast _ (by simp)⟩
    simp [lastArrival, List.getLast?_cons_cons, hx]

theorem urun_cons (s : Registry) (e : UEv) (evs : List UEv) :
    urun s (e :: evs) = urun (ustep s e) evs := rfl

theorem urun_padds_single (i : String) :
    ∀ (adds : List (String × ℚ)) (att : Bool) (l0 : ℚ) (parts : List String),
      att = false →
      ∃ ps, urun [(i, ⟨att, l0, parts⟩)]
          (adds.map (fun a => UEv.padd i a.1 a.2)) =
        [(i, ⟨false, lastArrival adds l0, ps⟩)] := by
  intro adds
  induction adds with
  | nil =>
    intro att l0 parts hatt
    subst hatt
    exact ⟨parts, by simp [urun, lastArrival]⟩
  | cons a adds ih =>
    intro att l0 parts hatt
    subst hatt
    have hstep : ustep [(i, (⟨false, l0, parts⟩ : Disk))] (UEv.padd i a.1 a.2) =
        [(i, ⟨false, a.2, a.1 :: parts⟩)] := by
      simp [ustep, partition_add, List.lookup, upd]
    rw [List.map_cons, urun_cons, hstep, lastArrival_cons]
    exact ih false a.2 (a.1 :: parts) rfl

theorem urun_ticks_single (i : String) :
    ∀ (ticks : List ℚ) (d : Disk), d.attached = false →
      (attachedIn (urun [(i, d)] (ticks.map UEv.tick)) i = true ↔
        ∃ u ∈ ticks, u - d.last > UDEV_TIMEOUT) := by
  intro ticks
  induction ticks with
  | nil =>
    intro d hd
    constructor
    · intro h
      simp [urun, attachedIn, List.lookup, hd] at h
    · rintro ⟨u, hu, -⟩
      simp at hu
  | cons u ticks ih =>
    intro d hd
    by_cases hq : u - d.last > UDEV_TIMEOUT
    · have hstep : ustep [(i, d)] (UEv.tick u) =
          [(i, { d with attached := true })] := by
        simp [ustep, debounce_check, hd, hq]
      rw [List.map_cons, urun_cons, hstep]
      constructor
      · intro _
        exact ⟨u, by simp, hq⟩
      · intro _
        apply urun_mono
        simp [attachedIn, List.lookup]
    · have hstep : ustep [(i, d)] (UEv.tick u) = [(i, d)] := by
        simp [ustep, debounce_check, hd, hq]
      rw [List.map_cons, urun_cons, hstep, ih d hd]
      constructor
      · rintro ⟨v, hv, hvq⟩
        exact ⟨v, by simp [hv], hvq⟩
      · rintro ⟨v, hv, hvq⟩
        rcases (by simpa using hv : v = u ∨ v ∈ ticks) with rfl | hv'
        · exact absurd hvq hq
        · exact ⟨v, hv', hvq⟩


/-- C8: a partition-add event whose owning disk is unknown to the registry,
or whose owning disk is already attached, leaves the registry (every disk's
partition list and quiet-period timer) unchanged, and the logged warning is
its only effect; nothing is stored, so the partition is never retried. -/
theorem c8_foreign_partition_add (s : Registry) (id dev : String) (now : ℚ)
    (h : s.lookup id = none ∨ ∃ d, s.lookup id = some d ∧ d.attached = true) :
    partition_add s id dev now = (s, true) := by
  unfold partition_add
  rcases h with h | ⟨d, hd, hatt⟩
  · rw [h]
  · rw [hd]
    simp [hatt]

/-- Witness for C8 at concrete inputs: an unknown disk and an attached disk
both leave the registry unchanged with only the warning. -/
theorem c8_foreign_partition_add_witness :
    partition_add [("A", ⟨true, 0, []⟩)] "A" "sda1" 5 =
      ([("A", ⟨true, 0, []⟩)], true) ∧
    partition_add [("A", ⟨true, 0, []⟩)] "B" "sdb1" 5 =
      ([("A", ⟨true, 0, []⟩)], true) :=
  ⟨c8_foreign_partition_add [("A", ⟨true, 0, []⟩)] "A" "sda1" 5
     (Or.inr ⟨⟨true, 0, []⟩, by simp [List.lookup], rfl⟩),
   c8_foreign_partition_add [("A", ⟨true, 0, []⟩)] "B" "sdb1" 5
     (Or.inl (by simp [List.lookup]))⟩

/-- C3: each debounce-check tick promotes at most one disk — a promoting
tick raises the attached count by exactly one and terminates its check
instance (returns FALSE), while a tick finding no ready disk re-arms
(returns TRUE) and leaves the registry unchanged; a disk is promoted only
when it is unattached and quiet for more than the debounce window; a
partition-add on a known unattached disk restarts the quiet-period timer;
the attached flag is monotone (so it becomes true at most once); and for a
single known disk, a sequence of partition-adds followed by ticks attaches
the disk iff some tick falls more than the debounce window after the last
partition arrival. -/
theorem c3_debounce (s : Registry) (now : ℚ) (i dev : String) (d : Disk)
    (adds : List (String × ℚ)) (ticks : List ℚ) (t0 : ℚ) (ps : List String) :
    ((debounce_check s now).2 = true → (debounce_check s now).1 = s) ∧
    ((debounce_check s now).2 = false →
      countAttached (debounce_check s now).1 = countAttached s + 1) ∧
    ((debounce_check s now).2 = true →
      countAttached (debounce_check s now).1 = countAttached s) ∧
    (∀ j, attachedIn (debounce_check s now).1 j = true →
      attachedIn s j = true ∨
        ∃ d', s.lookup j = some d' ∧ d'.attached = false ∧
          now - d'.last > UDEV_TIMEOUT) ∧
    (s.lookup i = some d → d.attached = false →
      (partition_add s i dev now).1.lookup i =
        some { d with last := now, partitions := dev :: d.partitions }) ∧
    (∀ e j, attachedIn s j = true → attachedIn (ustep s e) j = true) ∧
    (attachedIn (urun [(i, ⟨false, t0, ps⟩)]
        ((adds.map fun a => UEv.padd i a.1 a.2) ++ ticks.map UEv.tick)) i = true ↔
      ∃ u ∈ ticks, u - lastArrival adds t0 > UDEV_TIMEOUT) := by
  refine ⟨tick_rearm_id now s, (tick_count now s).1, (tick_count now s).2,
    tick_promote_valid now s, ?_, fun e j => ustep_mono s e j, ?_⟩
  · intro hl hatt
    unfold partition_add
    rw [hl]
    dsimp only
    rw [if_neg (show ¬ d.attached = true by rw [hatt]; exact Bool.false_ne_true)]
    exact lookup_upd_self s i d _ hl
  · have hsplit : urun [(i, (⟨false, t0, ps⟩ : Disk))]
        ((adds.map fun a => UEv.padd i a.1 a.2) ++ ticks.map UEv.tick) =
        urun (urun [(i, ⟨false, t0, ps⟩)] (adds.map fun a => UEv.padd i a.1 a.2))
          (ticks.map UEv.tick) := by
      simp [urun, List.foldl_append]
    obtain ⟨ps', hps⟩ := urun_padds_single i adds false t0 ps rfl
    rw [hsplit, hps]
    exact urun_ticks_single i ticks ⟨false, lastArrival adds t0, ps'⟩ rfl

/-- Embedding of the remove branch of `on_uevent` (udev.c): a known disk is
stolen from the registry, marked unattached, its cancellable cancelled, and
pushed onto the worker queue; a remove for an unknown disk is a no-op.
Returns the new registry and the queued disk, if any. -/
def remove_disk (s : Registry) (id : String) : Registry × Option Disk :=
  match s.lookup id with
  | some d => (s.filter (fun p => p.1 != id), some { d with attached := false })
  | none => (s, none)

/-- Witness for C3 at concrete inputs: one disk added at time 0, one
partition at time 1, and ticks at times 1.5 and 3; the disk ends attached
because the tick at 3 falls more than one second after the last partition
arrival. -/
theorem c3_debounce_witness :
    attachedIn (urun [("A", ⟨false, (0 : ℚ), []⟩)]
        (([("sda1", (1 : ℚ))].map fun a => UEv.padd "A" a.1 a.2) ++
          [(3 : ℚ)].map UEv.tick)) "A" = true :=
  (c3_debounce [("A", ⟨false, (0 : ℚ), []⟩)] 0 "A" "sda1" ⟨false, 0, []⟩
      [("sda1", (1 : ℚ))] [(3 : ℚ)] 0 []).2.2.2.2.2.2.mpr
    ⟨3, by simp, by norm_num [lastArrival, UDEV_TIMEOUT]⟩

end Udev

namespace Removal

/-- C10: every remove event for a known disk queues it with `attached`
forced false, so the worker emits a detach notification even for a disk
that never became attached (and emits no attach for it); `on_detach`
decrements the unsigned 32-bit `device_count` unconditionally, wrapping
modulo `2^32` when it is already 0; after such a wrap the published device
count no longer equals the number of attached disks and the counter-reset
condition `device_count == 0` fails to hold when all disks are removed. -/
theorem c10_detach_underflow (s : Udev.Registry) (id : String) (d : Udev.Disk)
    (o : Worker.MountOracles) (ures : String → Option Nat)
    (parts : List Worker.Partition) (mps : List String) (c : Counter.Ctx) :
    (s.lookup id = some d →
      (Udev.remove_disk s id).2 = some { d with attached := false }) ∧
    ((Worker.process_disk o ures ⟨false, parts, mps⟩).head? =
      some .sigDetach) ∧
    (∀ l, Worker.WEv.sigAttach l ∉ Worker.process_disk o ures ⟨false, parts, mps⟩) ∧
    ((Counter.step c .detach).device_count =
      (c.device_count + (GUINT_MOD - 1)) % GUINT_MOD) ∧
    (c.device_count = 0 →
      (Counter.step c .detach).device_count = GUINT_MOD - 1 ∧
      (Counter.step c .detach).device_count ≠ 0) ∧
    (Counter.run ⟨0, 0⟩ [.detach, .attach] = ⟨0, 0⟩) ∧
    (Counter.run ⟨0, 0⟩
        [.detach, .attach, .publish, .publish, .publish, .detach] =
      ⟨GUINT_MOD - 1, 3⟩ ∧ GUINT_MOD - 1 ≠ 0) := by
  have hM : GUINT_MOD = 4294967296 := by norm_num [GUINT_MOD]
  refine ⟨?_, ?_, ?_, rfl, ?_, ?_, ?_⟩
  · intro h
    unfold Udev.remove_disk
    rw [h]
  · simp [Worker.process_disk]
  · intro l
    simp only [Worker.process_disk, if_neg (by simp : ¬ false = true),
      List.mem_cons]
    push_neg
    refine ⟨by simp, ?_⟩
    intro hmem
    rw [List.mem_flatMap] at hmem
    obtain ⟨dir, -, hin⟩ := hmem
    unfold Worker.umount_partition at hin
    rcases h : ures dir with - | e
    · rw [h] at hin
      simp at hin
    · rw [h] at hin
      by_cases he : e ≠ Worker.EINVAL <;> simp [he] at hin
  · intro h0
    constructor
    · simp only [Counter.step, h0]
      rw [hM]
    · simp only [Counter.step, h0]
      rw [hM]
      norm_num
  · decide
  · rw [hM]
    refine ⟨by decide, by norm_num⟩

/-- Witness for C10 at concrete inputs: removing a known, never-attached
disk queues it unattached, and a decrement from device count 0 wraps to
`2^32 - 1`. -/
theorem c10_detach_underflow_witness :
    ((Udev.remove_disk [("A", ⟨false, 0, []⟩)] "A").2 =
      some ⟨false, 0, []⟩) ∧
    ((Counter.step ⟨0, 7⟩ .detach).device_count = GUINT_MOD - 1 ∧
     (Counter.step ⟨0, 7⟩ .detach).device_count ≠ 0) :=
  ⟨(c10_detach_underflow [("A", ⟨false, (0 : ℚ), []⟩)] "A" ⟨false, 0, []⟩
      ⟨none, fun _ => none, fun _ _ _ => true⟩ (fun _ => none) [] [] ⟨0, 7⟩).1
     (by simp [List.lookup]),
   (c10_detach_underflow [("A", ⟨false, (0 : ℚ), []⟩)] "A" ⟨false, 0, []⟩
      ⟨none, fun _ => none, fun _ _ _ => true⟩ (fun _ => none) [] [] ⟨0, 7⟩).2.2.2.2.1
     rfl⟩

end Removal


